import Mathlib

/-!
Verification of the request-normalization and tool-call extraction layer of
the AIOS repository (src/aios/llm_core/llm_classes/base_llm.py).

The development shallowly embeds the three methods of BaseLLM that the
claims are about:

  * parse_json_format : regex-based recovery of a JSON candidate substring
    followed by json.loads / json.dumps re-serialization;
  * parse_tool_calls  : json.loads of the recovered text followed by the
    loop that assigns an id and a type to every element;
  * tool_calling_input_format : the message-normalization pass plus the
    instruction-block injection into the final message.

Modelling conventions:

  * Python exceptions that escape a function are modelled by Option: a
    result of none means the call raises to the caller, some means it
    returns normally.
  * json values are modelled by the mutual inductive JVal below.  Numbers
    keep their source lexeme (split into sign / integer / fraction /
    exponent parts) instead of being converted to binary floating point;
    consequently dumps re-emits the lexeme where CPython would re-format a
    float (for example 1e2 is kept as 1e2 where CPython prints 100.0).
    Integer literals, which all concrete inputs of this development use,
    are re-emitted identically by both.
  * dumps escapes the two quote characters, backslash and the control
    characters exactly as CPython json.dumps does, but emits all other
    characters raw (the ensure_ascii=True re-encoding of characters above
    0x7e into backslash-u escapes is not modelled; it never changes
    whether the output is valid JSON).
  * Lone UTF-16 surrogate escapes inside JSON strings are treated as parse
    errors (Lean's Char cannot hold a lone surrogate, CPython's str can);
    paired surrogate escapes are combined exactly as CPython does.
  * The regex searches for the two patterns of parse_json_format are
    modelled by dedicated scanners that follow the backtracking order of
    the Python engine (leftmost start; greedy \s-star; lazy dot-star);
    where the model commits deterministically, a comment justifies why
    the committed choice is the one the backtracking engine returns.
-/

namespace Aios

/-- Characters matched by the Python regex class backslash-s on str
patterns.  This is the complete set: the 29 code points with the Unicode
White_Space property together with 0x1c..0x1f. -/
def pws (c : Char) : Bool :=
  let n := c.toNat
  (9 ≤ n && n ≤ 13) || (28 ≤ n && n ≤ 32) || n = 0x85 || n = 0xa0 ||
  n = 0x1680 || (0x2000 ≤ n && n ≤ 0x200a) || n = 0x2028 || n = 0x2029 ||
  n = 0x202f || n = 0x205f || n = 0x3000

/-- Whitespace accepted between tokens by the CPython json parser:
space, tab, newline, carriage return. -/
def jws (c : Char) : Bool :=
  c = ' ' || c = '\t' || c = '\n' || c = '\r'

/-- Drop leading json whitespace. -/
def skipWs : List Char → List Char
  | [] => []
  | c :: t => if jws c then skipWs t else c :: t

/-- Split off the longest leading run of regex whitespace. -/
def spanPws : List Char → List Char × List Char
  | [] => ([], [])
  | c :: t =>
    if pws c then
      match spanPws t with
      | (a, b) => (c :: a, b)
    else ([], c :: t)

/-- A json number as CPython json reads it, kept as its source lexeme split
into parts: nan and inf mirror the NaN / Infinity / -Infinity constants the
CPython parser accepts; std carries sign, integer digits, fraction digits
([] when absent), the exponent marker character, the explicit exponent sign
(none when absent) and the exponent digits ([] when absent). -/
inductive NumRep where
  | nan : NumRep
  | inf (neg : Bool) : NumRep
  | std (neg : Bool) (ip fp : List Char) (ec : Char) (es : Option Char)
      (ep : List Char) : NumRep

mutual
/-- A json value: the result type of the embedded json.loads. -/
inductive JVal where
  | null : JVal
  | bool (b : Bool) : JVal
  | num (n : NumRep) : JVal
  | str (s : List Char) : JVal
  | arr (elems : JElems) : JVal
  | obj (mems : JMems) : JVal

/-- The elements of a json array. -/
inductive JElems where
  | nil : JElems
  | cons (hd : JVal) (tl : JElems) : JElems

/-- The members of a json object (a Python dict): key order is first
insertion order, values are the last value written for the key. -/
inductive JMems where
  | nil : JMems
  | cons (key : List Char) (val : JVal) (tl : JMems) : JMems
end

/-- Digits as a hexadecimal character, as the json.dumps backslash-u00xx
escape prints them. -/
def hexChar (n : Nat) : Char :=
  if n < 10 then Char.ofNat (48 + n) else Char.ofNat (87 + n)

/-- json.dumps escaping of one string character.  The double quote, the
backslash and the control characters are escaped exactly as CPython does;
all other characters are emitted raw (see the header note on
ensure_ascii). -/
def escChar (c : Char) : List Char :=
  if c = '"' then ['\\', '"']
  else if c = '\\' then ['\\', '\\']
  else if c = '\n' then ['\\', 'n']
  else if c = '\r' then ['\\', 'r']
  else if c = '\t' then ['\\', 't']
  else if c = '\x08' then ['\\', 'b']
  else if c = '\x0c' then ['\\', 'f']
  else if c.toNat < 0x20 then
    ['\\', 'u', '0', '0', hexChar (c.toNat / 16), hexChar (c.toNat % 16)]
  else [c]

/-- json.dumps escaping of a whole string body. -/
def escList : List Char → List Char
  | [] => []
  | c :: t => escChar c ++ escList t

/-- The explicit exponent sign characters of a number lexeme. -/
def sgnPart : Option Char → List Char
  | some s => [s]
  | none => []

/-- The lexeme json.dumps prints for a number value. -/
def dumpsNum : NumRep → List Char
  | .nan => ['N', 'a', 'N']
  | .inf false => ['I', 'n', 'f', 'i', 'n', 'i', 't', 'y']
  | .inf true => ['-', 'I', 'n', 'f', 'i', 'n', 'i', 't', 'y']
  | .std neg ip fp ec es ep =>
    (if neg then ['-'] else []) ++ ip ++
    (if fp.isEmpty then [] else '.' :: fp) ++
    (if ep.isEmpty then [] else ec :: sgnPart es ++ ep)

mutual
/-- The embedded json.dumps (default separators: comma-space between items,
colon-space after keys). -/
def dumpsV : JVal → List Char
  | .null => ['n', 'u', 'l', 'l']
  | .bool true => 't' :: ['r', 'u', 'e']
  | .bool false => 'f' :: ['a', 'l', 's', 'e']
  | .num n => dumpsNum n
  | .str s => '"' :: (escList s ++ ['"'])
  | .arr .nil => ['[', ']']
  | .arr (.cons h t) => '[' :: (dumpsElems (.cons h t) ++ [']'])
  | .obj .nil => ['\x7b', '\x7d']
  | .obj (.cons k v t) => '\x7b' :: (dumpsMems (.cons k v t) ++ ['\x7d'])

/-- Array elements, joined by comma-space. -/
def dumpsElems : JElems → List Char
  | .nil => []
  | .cons h .nil => dumpsV h
  | .cons h (.cons x y) => dumpsV h ++ ',' :: ' ' :: dumpsElems (.cons x y)

/-- Object members, joined by comma-space, with colon-space after keys. -/
def dumpsMems : JMems → List Char
  | .nil => []
  | .cons k v .nil => '"' :: (escList k ++ '"' :: ':' :: ' ' :: dumpsV v)
  | .cons k v (.cons k2 v2 t) =>
    '"' :: (escList k ++ '"' :: ':' :: ' ' :: dumpsV v) ++
    ',' :: ' ' :: dumpsMems (.cons k2 v2 t)
end

/-- Split off the longest leading run of decimal digits. -/
def takeDigits : List Char → List Char × List Char
  | [] => ([], [])
  | c :: t =>
    if c.isDigit then
      match takeDigits t with
      | (a, b) => (c :: a, b)
    else ([], c :: t)

/-- Optional exponent part, mirroring the ([eE][-+]?[0-9]+)? group of the
CPython json NUMBER_RE: when the marker is present but no digit follows the
optional sign, the whole group matches nothing and the number ends before
the marker. -/
def expSign (rest1 : List Char) : Option Char × List Char :=
  match rest1 with
  | c2 :: t2 => if c2 = '+' || c2 = '-' then (some c2, t2) else (none, rest1)
  | [] => (none, rest1)

def numExp (neg : Bool) (ip fp : List Char) (cs : List Char) :
    Option (NumRep × List Char) :=
  match cs with
  | c1 :: rest1 =>
    if c1 = 'e' || c1 = 'E' then
      match takeDigits (expSign rest1).2 with
      | ([], _) => some (.std neg ip fp 'e' none [], cs)
      | (d :: ds, r) => some (.std neg ip fp c1 (expSign rest1).1 (d :: ds), r)
    else some (.std neg ip fp 'e' none [], cs)
  | [] => some (.std neg ip fp 'e' none [], [])

/-- Optional fraction part, mirroring the (\.[0-9]+)? group: the dot is
consumed only when at least one digit follows it. -/
def numFrac (neg : Bool) (ip : List Char) (cs : List Char) :
    Option (NumRep × List Char) :=
  match cs with
  | c1 :: rest1 =>
    if c1 = '.' then
      match rest1 with
      | d :: t2 =>
        if d.isDigit then
          match takeDigits t2 with
          | (ds, r) => numExp neg ip (d :: ds) r
        else numExp neg ip [] cs
      | [] => numExp neg ip [] cs
    else numExp neg ip [] cs
  | [] => numExp neg ip [] []

/-- Integer part, mirroring the (-?(?:0|[1-9][0-9]*)) group: a single zero
or a nonzero digit followed by any digits. -/
def numInt (neg : Bool) (cs : List Char) : Option (NumRep × List Char) :=
  match cs with
  | c :: t =>
    if c = '0' then numFrac neg ['0'] t
    else if c.isDigit then
      match takeDigits t with
      | (ds, r) => numFrac neg (c :: ds) r
    else none
  | [] => none

/-- The embedded number scanner: maximal-munch match of the CPython json
NUMBER_RE at the head of the input, returning the parsed parts and the
unconsumed remainder. -/
def parseNumber (cs : List Char) : Option (NumRep × List Char) :=
  match cs with
  | c :: t => if c = '-' then numInt true t else numInt false cs
  | [] => none

/-- Value of one hexadecimal digit character, upper or lower case. -/
def hexVal (c : Char) : Option Nat :=
  if '0' ≤ c && c ≤ '9' then some (c.toNat - 48)
  else if 'a' ≤ c && c ≤ 'f' then some (c.toNat - 87)
  else if 'A' ≤ c && c ≤ 'F' then some (c.toNat - 55)
  else none

/-- Value of a four-hex-digit escape. -/
def hex4 (a b c d : Char) : Option Nat :=
  match hexVal a, hexVal b, hexVal c, hexVal d with
  | some x, some y, some z, some w => some (x * 4096 + y * 256 + z * 16 + w)
  | _, _, _, _ => none

/-- Translation of one short escape character, as the CPython scanner
BACKSLASH table. -/
def escMap (e : Char) : Option Char :=
  if e = '"' then some '"'
  else if e = '\\' then some '\\'
  else if e = '/' then some '/'
  else if e = 'b' then some '\x08'
  else if e = 'f' then some '\x0c'
  else if e = 'n' then some '\n'
  else if e = 'r' then some '\r'
  else if e = 't' then some '\t'
  else none

/-- Prepend a decoded character to a string-scan result. -/
def consRes (c : Char) : Option (List Char × List Char) →
    Option (List Char × List Char)
  | some (s, rest) => some (c :: s, rest)
  | none => none

mutual
/-- The embedded string scanner: input starts right after the opening
quote; returns the decoded body and the remainder after the closing quote.
Strict mode: raw control characters below 0x20 are rejected. -/
def parseStringBody : List Char → Option (List Char × List Char)
  | [] => none
  | c :: r =>
    if c = '"' then some ([], r)
    else if c = '\\' then parseEscape r
    else if c.toNat < 0x20 then none
    else consRes c (parseStringBody r)

/-- One escape sequence, after the backslash. -/
def parseEscape : List Char → Option (List Char × List Char)
  | [] => none
  | e :: t =>
    if e = 'u' then parseU t
    else
      match escMap e with
      | some d => consRes d (parseStringBody t)
      | none => none

/-- A backslash-u escape: four hex digits; a high surrogate must be
followed by a low surrogate escape (combined as CPython does); a lone
surrogate escape is rejected (see the header note). -/
def parseU : List Char → Option (List Char × List Char)
  | h1 :: h2 :: h3 :: h4 :: t2 =>
    match hex4 h1 h2 h3 h4 with
    | none => none
    | some code =>
      if code < 0xd800 || 0xe000 ≤ code then
        consRes (Char.ofNat code) (parseStringBody t2)
      else if code < 0xdc00 then parseLow code t2
      else none
  | _ => none

/-- The low half of a surrogate pair. -/
def parseLow (code : Nat) : List Char → Option (List Char × List Char)
  | x1 :: x2 :: g1 :: g2 :: g3 :: g4 :: t3 =>
    if x1 = '\\' && x2 = 'u' then
      match hex4 g1 g2 g3 g4 with
      | none => none
      | some code2 =>
        if 0xdc00 ≤ code2 && code2 < 0xe000 then
          consRes
            (Char.ofNat (0x10000 + (code - 0xd800) * 1024 + (code2 - 0xdc00)))
            (parseStringBody t3)
        else none
    else none
  | _ => none
end

/-- Consume a fixed literal. -/
def dropLit : List Char → List Char → Option (List Char)
  | [], cs => some cs
  | p :: ps, c :: cs => if c = p then dropLit ps cs else none
  | _ :: _, [] => none

/-- Look up a key in the members parsed so far. -/
def mlookup (k : List Char) : JMems → Option JVal
  | .nil => none
  | .cons k2 v2 t => if k2 = k then some v2 else mlookup k t

/-- Remove a key from the members parsed so far. -/
def mremove (k : List Char) : JMems → JMems
  | .nil => .nil
  | .cons k2 v2 t => if k2 = k then mremove k t else .cons k2 v2 (mremove k t)

/-- Prepend the pair (k, v) to the dict m built from the later pairs of the
object, with CPython dict semantics for duplicate keys: the key keeps its
first position but takes its last value.  So when k already occurs in m the
result moves that occurrence (and its later value) to the front. -/
def consKey (k : List Char) (v : JVal) (m : JMems) : JMems :=
  match mlookup k m with
  | some w => .cons k w (mremove k m)
  | none => .cons k v m

mutual
/-- The embedded json value scanner (CPython json.scanner scan_once).  The
fuel argument only bounds the nesting recursion; every recursive call
strictly decreases it, and loads below passes fuel ample for any input of
the given length.  Input starts at a non-skipped position: callers skip
whitespace first, as the CPython scanner does. -/
def parseValue : Nat → List Char → Option (JVal × List Char)
  | 0, _ => none
  | Nat.succ fuel, cs =>
    match cs with
    | [] => none
    | c :: r =>
      if c = 'n' then
        match dropLit ['u', 'l', 'l'] r with
        | some r2 => some (.null, r2)
        | none => none
      else if c = 't' then
        match dropLit ['r', 'u', 'e'] r with
        | some r2 => some (.bool true, r2)
        | none => none
      else if c = 'f' then
        match dropLit ['a', 'l', 's', 'e'] r with
        | some r2 => some (.bool false, r2)
        | none => none
      else if c = 'N' then
        match dropLit ['a', 'N'] r with
        | some r2 => some (.num .nan, r2)
        | none => none
      else if c = 'I' then
        match dropLit ['n', 'f', 'i', 'n', 'i', 't', 'y'] r with
        | some r2 => some (.num (.inf false), r2)
        | none => none
      else if c = '"' then
        match parseStringBody r with
        | some (s, r2) => some (.str s, r2)
        | none => none
      else if c = '[' then
        match skipWs r with
        | [] => none
        | d :: r2 =>
          if d = ']' then some (.arr .nil, r2)
          else
            match parseElems fuel r with
            | some (l, rest) => some (.arr l, rest)
            | none => none
      else if c = '\x7b' then
        match skipWs r with
        | [] => none
        | d :: r2 =>
          if d = '\x7d' then some (.obj .nil, r2)
          else
            match parseMems fuel r with
            | some (m, rest) => some (.obj m, rest)
            | none => none
      else if c = '-' then
        match dropLit ['I', 'n', 'f', 'i', 'n', 'i', 't', 'y'] r with
        | some r2 => some (.num (.inf true), r2)
        | none =>
          match parseNumber cs with
          | some (n, rest) => some (.num n, rest)
          | none => none
      else
        match parseNumber cs with
        | some (n, rest) => some (.num n, rest)
        | none => none

/-- One or more comma-separated array elements followed by the closing
bracket (the empty array is handled by the caller). -/
def parseElems : Nat → List Char → Option (JElems × List Char)
  | 0, _ => none
  | Nat.succ fuel, cs =>
    match parseValue fuel (skipWs cs) with
    | none => none
    | some (v, r1) =>
      match skipWs r1 with
      | [] => none
      | d :: r2 =>
        if d = ',' then
          match parseElems fuel r2 with
          | some (l, rest) => some (.cons v l, rest)
          | none => none
        else if d = ']' then some (.cons v .nil, r2)
        else none

/-- One or more comma-separated object members followed by the closing
brace (the empty object is handled by the caller). -/
def parseMems : Nat → List Char → Option (JMems × List Char)
  | 0, _ => none
  | Nat.succ fuel, cs =>
    match skipWs cs with
    | [] => none
    | c :: r =>
      if c = '"' then
        match parseStringBody r with
        | none => none
        | some (k, r1) =>
          match skipWs r1 with
          | [] => none
          | d :: r2 =>
            if d = ':' then
              match parseValue fuel (skipWs r2) with
              | none => none
              | some (v, r3) =>
                match skipWs r3 with
                | [] => none
                | e :: r4 =>
                  if e = ',' then
                    match parseMems fuel r4 with
                    | some (m, rest) => some (consKey k v m, rest)
                    | none => none
                  else if e = '\x7d' then some (.cons k v .nil, r4)
                  else none
            else none
      else none

end

/-- The embedded json.loads: skip leading whitespace, scan one value,
require only whitespace after it.  The fuel passed to the scanner strictly
exceeds what any input of this length can consume, since the scanner
consumes at least one character for every two fuel steps. -/
def loads (cs : List Char) : Option JVal :=
  match parseValue (2 * cs.length + 2) (skipWs cs) with
  | some (v, rest) => if skipWs rest = [] then some v else none
  | none => none

/-! ## The two regex searches of parse_json_format

json_array_pattern  is  backslash-[ backslash-s* backslash-x7b dot*?
backslash-x7d backslash-s* backslash-]  and  json_object_pattern  is
backslash-x7b backslash-s* dot*? backslash-s* backslash-x7d  (written here
without brace characters).  The scanners below follow the backtracking
order of the Python engine.  Two deterministic commitments are exact for
these patterns and are used throughout: a greedy backslash-s* that is
immediately followed by a required literal can be committed to the maximal
whitespace run, because no whitespace character equals that literal, so
every shorter run fails on the same literal test; and a lazy dot*? is
extended one character at a time, testing the rest of the pattern before
each extension, which is exactly the preference order of the engine. -/

/-- Backtracking scan for  dot*? backslash-x7d backslash-s* backslash-]
(the tail of the array pattern): at each position first try to close with
the brace-whitespace-bracket sequence, otherwise extend the lazy dot over
one non-newline character.  Returns the consumed characters (including the
closing bracket) and the remainder. -/
def arrClose : List Char → Option (List Char × List Char)
  | [] => none
  | c :: t =>
    if c = '\x7d' then
      match spanPws t with
      | (ws, d :: t2) =>
        if d = ']' then some ('\x7d' :: ws ++ [']'], t2)
        else
          match arrClose t with
          | some (a, b) => some (c :: a, b)
          | none => none
      | (_, []) =>
        match arrClose t with
        | some (a, b) => some (c :: a, b)
        | none => none
    else if c = '\n' then none
    else
      match arrClose t with
      | some (a, b) => some (c :: a, b)
      | none => none

/-- Match of the whole array pattern anchored at the head of the input,
returning the matched substring. -/
def matchArrayAt (cs : List Char) : Option (List Char) :=
  match cs with
  | c :: t =>
    if c = '[' then
      match spanPws t with
      | (ws, d :: t2) =>
        if d = '\x7b' then
          match arrClose t2 with
          | some (a, _) => some ('[' :: ws ++ '\x7b' :: a)
          | none => none
        else none
      | (_, []) => none
    else none
  | [] => none

/-- re.search of the array pattern: try every start position left to
right. -/
def searchArray : List Char → Option (List Char)
  | [] => none
  | c :: t =>
    match matchArrayAt (c :: t) with
    | some m => some m
    | none => searchArray t

/-- Backtracking scan for  dot*? backslash-s* backslash-x7d  (the tail of
the object pattern): at each position first try to close with the maximal
whitespace run followed by the brace, otherwise extend the lazy dot over
one non-newline character. -/
def objClose : List Char → Option (List Char × List Char)
  | [] => none
  | c :: t =>
    match spanPws (c :: t) with
    | (ws, d :: t2) =>
      if d = '\x7d' then some (ws ++ ['\x7d'], t2)
      else if c = '\n' then none
      else
        match objClose t with
        | some (a, b) => some (c :: a, b)
        | none => none
    | (_, []) => none

/-- Match of the whole object pattern anchored at the head of the input.
The leading greedy backslash-s* is committed to the maximal run: a proof
sketch that this is what the engine returns is that any successful match
with a shorter run either reaches the same closing brace with the lazy dot
covering the rest of the run, or closes inside the run, in which case the
maximal-run alternative with an empty lazy dot also closes there, and the
engine prefers the longer run. -/
def matchObjAt (cs : List Char) : Option (List Char) :=
  match cs with
  | c :: t =>
    if c = '\x7b' then
      match spanPws t with
      | (ws, rest) =>
        match objClose rest with
        | some (a, _) => some ('\x7b' :: ws ++ a)
        | none => none
    else none
  | [] => none

/-- re.search of the object pattern. -/
def searchObject : List Char → Option (List Char)
  | [] => none
  | c :: t =>
    match matchObjAt (c :: t) with
    | some m => some m
    | none => searchObject t

/-! ## The three embedded methods of BaseLLM -/

/-- The object-pattern fallback half of parse_json_format: search for an
object-shaped substring, re-serialize it if it parses, otherwise return
the empty-array literal. -/
def objectPhase (message : List Char) : List Char :=
  match searchObject message with
  | some cand =>
    match loads cand with
    | some v => dumpsV v
    | none => ['[', ']']
  | none => ['[', ']']

/-- BaseLLM.parse_json_format: search for an array-shaped substring and
re-serialize it if it parses; on a failed search or a parse error fall
back to the object phase.  The try/except around json.loads is the match
on its Option result. -/
def parse_json_format (message : List Char) : List Char :=
  match searchArray message with
  | some cand =>
    match loads cand with
    | some v => dumpsV v
    | none => objectPhase message
  | none => objectPhase message

/-- Modelled from the spec: aios.utils.id_generator.generator_tool_call_id
is not under src/.  The spec only requires ids to be freshly generated and
unique within one extraction call (monotonic or random both allowed); the
model uses a monotonic counter rendered as text. -/
def generator_tool_call_id (n : Nat) : List Char :=
  ('c' :: 'a' :: 'l' :: 'l' :: '_' :: []) ++ (Nat.repr n).data

/-- Python dict item assignment d[k] := v on an existing dict: an existing
key keeps its position and takes the new value, a new key is appended. -/
def setItem (m : JMems) (k : List Char) (v : JVal) : JMems :=
  match m with
  | .nil => .cons k v .nil
  | .cons k2 v2 t => if k2 = k then .cons k2 v t else .cons k2 v2 (setItem t k v)

/-- The two assignments of the parse_tool_calls loop body on one element:
tool_call[id] := generated id, tool_call[type] := function. -/
def addIdType (i : Nat) (m : JMems) : JMems :=
  setItem
    (setItem m ['i', 'd'] (.str (generator_tool_call_id i)))
    ['t', 'y', 'p', 'e'] (.str ['f', 'u', 'n', 'c', 't', 'i', 'o', 'n'])

/-- The parse_tool_calls loop over a list value: every element must be a
dict for the item assignment to succeed; a non-dict element raises
TypeError (modelled as none). -/
def assignElems (i : Nat) : JElems → Option JElems
  | .nil => some .nil
  | .cons (.obj m) t =>
    match assignElems (i + 1) t with
    | some t2 => some (.cons (.obj (addIdType i m)) t2)
    | none => none
  | .cons _ _ => none

/-- The parse_tool_calls for-loop applied to the value json.loads returned:
iterating a list visits its elements; iterating a dict visits its keys,
which are strings, so the first item assignment on a nonempty dict raises
TypeError, while an empty dict runs zero iterations and is returned as is;
iterating a string visits its characters with the same TypeError on the
first one; null, booleans and numbers are not iterable (TypeError). -/
def pyIter : JVal → Option JVal
  | .arr l =>
    match assignElems 0 l with
    | some l2 => some (.arr l2)
    | none => none
  | .obj .nil => some (.obj .nil)
  | .str [] => some (.str [])
  | _ => none

/-- BaseLLM.parse_tool_calls: json.loads of the parse_json_format output
(a parse error here is uncaught), then the id / type assignment loop. -/
def parse_tool_calls (message : List Char) : Option JVal :=
  match loads (parse_json_format message) with
  | some v => pyIter v
  | none => none

/-! ## The message layer: BaseLLM.tool_calling_input_format -/

/-- A chat message dict.  Each optional field models the presence of the
corresponding key; a none field means the key is absent from the dict. -/
structure Message where
  role : Option String
  content : Option String
  tool_calls : Option JVal
  tool_call_id : Option String

/-- The fixed prefix sentence of the instruction block. -/
def prefix_prompt : String :=
  "In and only in current step, you need to call tools. Available tools are: "

/-- The fixed suffix sentence of the instruction block (the joined literal
of the source). -/
def suffix_prompt : String :=
  "Must call functions that are available. To call a function, respond " ++
  "immediately and only with a list of JSON object of the following format:" ++
  "\x7b[\x7b\"name\":\"function_name_value\",\"parameters\":\x7b\"parameter_name1\":\"parameter_value1\"," ++
  "\"parameter_name2\":\"parameter_value2\"\x7d\x7d]\x7d"

/-- The per-message body of the tool_calling_input_format loop.  A message
with a tool_calls key has that value re-serialized into its content and the
key removed.  Otherwise a message with role tool is rewritten to role user,
its tool_call_id and content keys are popped and its content is rebuilt
from the fixed template of the source.  Every other message passes through
unchanged.  A missing role key (KeyError on the role read), or a tool-role
message missing tool_call_id or content (KeyError on pop), raises. -/
def flattenMsg (m : Message) : Option Message :=
  match m.tool_calls with
  | some tc =>
    some { role := m.role, content := some (String.mk (dumpsV tc)),
           tool_calls := none, tool_call_id := m.tool_call_id }
  | none =>
    match m.role with
    | none => none
    | some r =>
      if r = "tool" then
        match m.tool_call_id with
        | none => none
        | some tcid =>
          match m.content with
          | none => none
          | some c =>
            some { role := some "user",
                   content := some ("The result of the execution of function(id :"
                     ++ tcid ++ ") is: " ++ c ++ ". "),
                   tool_calls := none, tool_call_id := none }
      else some m

/-- The left-to-right loop of tool_calling_input_format over the message
list. -/
def flattenAll : List Message → Option (List Message)
  | [] => some []
  | m :: t =>
    match flattenMsg m with
    | none => none
    | some m2 =>
      match flattenAll t with
      | some t2 => some (m2 :: t2)
      | none => none

/-- The instruction block appended to the final message: prefix sentence,
json.dumps of the tool list, suffix sentence. -/
def instrBlock (tools : JVal) : String :=
  prefix_prompt ++ String.mk (dumpsV tools) ++ suffix_prompt

/-- BaseLLM.tool_calling_input_format: normalize every message, then append
the instruction block to the content of the last message.  Indexing
messages[-1] on an empty list raises IndexError, and the += read of a
missing content key raises KeyError; both are modelled as none. -/
def tool_calling_input_format (messages : List Message) (tools : JVal) :
    Option (List Message) :=
  match flattenAll messages with
  | none => none
  | some ms =>
    match ms.getLast? with
    | none => none
    | some last =>
      match last.content with
      | none => none
      | some c =>
        some (ms.dropLast ++
          [{ last with content := some (c ++ instrBlock tools) }])

/-! ## Well-formedness and size measures used by the round-trip lemmas -/

/-- The number representations the embedded scanner can produce: nonempty
all-digit integer part without a spurious leading zero, all-digit fraction
and exponent parts, a plus or minus exponent sign only together with
exponent digits, and the canonical marker when the exponent is absent. -/
def wfNum : NumRep → Bool
  | .nan => true
  | .inf _ => true
  | .std _ ip fp ec es ep =>
    !ip.isEmpty && ip.all Char.isDigit &&
    (ip.length == 1 || !(ip.headD '0' == '0')) &&
    fp.all Char.isDigit && ep.all Char.isDigit &&
    (match es with
     | some s => (s == '+' || s == '-') && !ep.isEmpty
     | none => true) &&
    (if ep.isEmpty then ec == 'e' else (ec == 'e' || ec == 'E'))

mutual
/-- Values the embedded json.loads can produce. -/
def wfV : JVal → Bool
  | .null => true
  | .bool _ => true
  | .num n => wfNum n
  | .str _ => true
  | .arr l => wfE l
  | .obj m => wfM m

/-- Elementwise well-formedness. -/
def wfE : JElems → Bool
  | .nil => true
  | .cons v t => wfV v && wfE t

/-- Memberwise well-formedness. -/
def wfM : JMems → Bool
  | .nil => true
  | .cons _ v t => wfV v && wfM t
end

mutual
/-- Fuel measure of a value: enough scanner fuel to re-read its dump. -/
def jsizeV : JVal → Nat
  | .null => 1
  | .bool _ => 1
  | .num _ => 1
  | .str _ => 1
  | .arr l => 1 + jsizeE l
  | .obj m => 1 + jsizeM m

/-- Fuel measure of array elements. -/
def jsizeE : JElems → Nat
  | .nil => 0
  | .cons v t => 1 + jsizeV v + jsizeE t

/-- Fuel measure of object members. -/
def jsizeM : JMems → Nat
  | .nil => 0
  | .cons _ v t => 1 + jsizeV v + jsizeM t
end

/-- A remainder at which a dumped token may stop: end of input or one of
the three delimiter characters that follow a value inside a dump.  None of
them can extend a number, a keyword or a preceding token. -/
def stopOk : List Char → Bool
  | [] => true
  | c :: _ => c = ',' || c = ']' || c = '\x7d'

/-- Head is not a digit (used to state where a digit run must end). -/
def headNotDigit : List Char → Bool
  | [] => true
  | c :: _ => !c.isDigit

/-- Key membership in an object. -/
def hasKeyM (k : List Char) : JMems → Bool
  | .nil => false
  | .cons k2 _ t => k2 = k || hasKeyM k t

/-- Checker used to refute the claim that elements missing a name key are
dropped: holds exactly when an extraction result is a one-element array
whose element is an object without a name key. -/
def singleNamelessElem (r : Option JVal) : Bool :=
  match r with
  | some (.arr (.cons (.obj m) .nil)) => !hasKeyM ['n', 'a', 'm', 'e'] m
  | _ => false

/-- The content template for tool-result messages exactly as the spec
writes it (space before the parenthesis, colon directly after id, final
period without a trailing space).  This definition follows the words of
the spec, to be compared with the template the code builds. -/
def spec_template (tcid c : String) : String :=
  "The result of the execution of function (id: " ++ tcid ++ ") is: " ++ c ++ "."

/-- Every element of the list is a dict. -/
def allObjs : JElems → Bool
  | .nil => true
  | .cons (.obj _) t => allObjs t
  | .cons _ _ => false

/-- The shapes on which the parse_tool_calls loop returns instead of
raising: a list whose elements are all dicts, an empty dict, or an empty
string (zero loop iterations). -/
def assignable : Option JVal → Bool
  | some (.arr l) => allObjs l
  | some (.obj .nil) => true
  | some (.str []) => true
  | _ => false

/-- The total companion of assignElems: what the loop writes when every
element is a dict (non-dict elements are left unchanged; they do not occur
under the allObjs hypothesis). -/
def assignAll (i : Nat) : JElems → JElems
  | .nil => .nil
  | .cons (.obj m) t => .cons (.obj (addIdType i m)) (assignAll (i + 1) t)
  | .cons v t => .cons v (assignAll (i + 1) t)

/-- Number of elements of a json array. -/
def elen : JElems → Nat
  | .nil => 0
  | .cons _ t => 1 + elen t

/-! ## Lemmas -/

theorem digit_ne {c : Char} (h : c.isDigit = true) (d : Char)
    (hd : d.isDigit = false) : c ≠ d := by
  intro he
  subst he
  rw [h] at hd
  exact Bool.noConfusion hd

theorem jws_of_digit {c : Char} (h : c.isDigit = true) : jws c = false := by
  have h1 : c ≠ ' ' := digit_ne h _ (by decide)
  have h2 : c ≠ '\t' := digit_ne h _ (by decide)
  have h3 : c ≠ '\n' := digit_ne h _ (by decide)
  have h4 : c ≠ '\r' := digit_ne h _ (by decide)
  simp [jws, h1, h2, h3, h4]

theorem skipWs_cons {c : Char} {t : List Char} (h : jws c = false) :
    skipWs (c :: t) = c :: t := by
  simp [skipWs, h]

theorem takeDigits_split {ds r : List Char} (hds : ds.all Char.isDigit = true)
    (hr : headNotDigit r = true) : takeDigits (ds ++ r) = (ds, r) := by
  induction ds with
  | nil =>
    simp only [List.nil_append]
    cases r with
    | nil => rfl
    | cons c t =>
      simp only [headNotDigit, Bool.not_eq_true'] at hr
      simp [takeDigits, hr]
  | cons c t ih =>
    simp only [List.all_cons, Bool.and_eq_true] at hds
    simp [takeDigits, hds.1, ih hds.2]

theorem stop_cases {c : Char} {t : List Char} (h : stopOk (c :: t) = true) :
    c = ',' ∨ c = ']' ∨ c = '\x7d' := by
  simpa [stopOk, or_assoc] using h

theorem stop_not_digit {r : List Char} (h : stopOk r = true) :
    headNotDigit r = true := by
  cases r with
  | nil => rfl
  | cons c t =>
    rcases stop_cases h with h1 | h1 | h1 <;> subst h1 <;> simp [headNotDigit]

theorem numExp_rt {neg : Bool} {ip fp ep : List Char} {ec : Char}
    {es : Option Char} {rest : List Char}
    (hep : ep.all Char.isDigit = true)
    (hes : es = none ∨ ∃ s, es = some s ∧ (s = '+' ∨ s = '-') ∧ ep ≠ [])
    (hec : if ep = [] then ec = 'e' else ec = 'e' ∨ ec = 'E')
    (hr : stopOk rest = true) :
    numExp neg ip fp
      ((if ep.isEmpty then [] else ec :: sgnPart es ++ ep) ++ rest)
      = some (.std neg ip fp ec es ep, rest) := by
  cases ep with
  | nil =>
    simp only [if_pos rfl] at hec
    subst hec
    cases es with
    | some s =>
      rcases hes with h | ⟨s2, heq, hpm, hnep⟩
      · exact absurd h (by simp)
      · exact absurd rfl hnep
    | none =>
      simp only [List.isEmpty_nil, if_pos, List.nil_append]
      cases rest with
      | nil => rfl
      | cons c t =>
        rcases stop_cases hr with h1 | h1 | h1 <;> subst h1 <;>
          simp [numExp]
  | cons d ds =>
    simp only [if_neg (by simp : ¬(d :: ds = [])), List.isEmpty_cons] at hec ⊢
    have hd : d.isDigit = true := by
      simp only [List.all_cons, Bool.and_eq_true] at hep
      exact hep.1
    have hds : (d :: ds).all Char.isDigit = true := hep
    have hecb : (ec = 'e' || ec = 'E') = true := by
      rcases hec with h1 | h1 <;> simp [h1]
    have htd : takeDigits (d :: (ds ++ rest)) = (d :: ds, rest) := by
      simpa using takeDigits_split hds (stop_not_digit hr)
    cases es with
    | some s =>
      have hpm : s = '+' ∨ s = '-' := by
        rcases hes with h | ⟨s2, heq, hpm, hnep⟩
        · exact absurd h (by simp)
        · exact Option.some.inj heq ▸ hpm
      rcases hpm with h1 | h1 <;> subst h1 <;>
        simp [numExp, expSign, sgnPart, hecb, htd]
    | none =>
      have hdp : d ≠ '+' ∧ d ≠ '-' :=
        ⟨digit_ne hd '+' (by decide), digit_ne hd '-' (by decide)⟩
      simp [numExp, expSign, sgnPart, hecb, hdp.1, hdp.2, htd]

theorem headND_exp {ep rest : List Char} {ec : Char} {es : Option Char}
    (hec : if ep = [] then ec = 'e' else ec = 'e' ∨ ec = 'E')
    (hr : stopOk rest = true) :
    headNotDigit
      ((if ep.isEmpty then [] else ec :: sgnPart es ++ ep) ++ rest)
      = true := by
  cases ep with
  | nil => simpa using stop_not_digit hr
  | cons d ds =>
    rw [if_neg (by simp : ¬(d :: ds = []))] at hec
    have : ec.isDigit = false := by
      rcases hec with h1 | h1 <;> subst h1 <;> decide
    simp [headNotDigit, this]

theorem numFrac_rt {neg : Bool} {ip fp ep : List Char} {ec : Char}
    {es : Option Char} {rest : List Char}
    (hfp : fp.all Char.isDigit = true)
    (hep : ep.all Char.isDigit = true)
    (hes : es = none ∨ ∃ s, es = some s ∧ (s = '+' ∨ s = '-') ∧ ep ≠ [])
    (hec : if ep = [] then ec = 'e' else ec = 'e' ∨ ec = 'E')
    (hr : stopOk rest = true) :
    numFrac neg ip
      ((if fp.isEmpty then [] else '.' :: fp) ++
       (if ep.isEmpty then [] else ec :: sgnPart es ++ ep) ++ rest)
      = some (.std neg ip fp ec es ep, rest) := by
  have hexp := @numExp_rt neg ip fp ep ec es rest hep hes hec hr
  cases fp with
  | nil =>
    simp only [List.isEmpty_nil, if_pos, List.nil_append]
    cases ep with
    | nil =>
      cases rest with
      | nil => simpa using hexp
      | cons c t =>
        have hc : c.isDigit = false ∧ c ≠ '.' := by
          rcases stop_cases hr with h1 | h1 | h1 <;> subst h1 <;> decide
        simp only [List.isEmpty_nil, if_pos, List.nil_append] at hexp ⊢
        simpa [numFrac, hc.2] using hexp
    | cons d ds =>
      rw [if_neg (by simp : ¬(d :: ds = []))] at hec
      have : ec ≠ '.' := by
        rcases hec with h1 | h1 <;> subst h1 <;> decide
      simp only [List.isEmpty_cons, if_neg] at hexp ⊢
      simpa [numFrac, this] using hexp
  | cons d fs =>
    simp only [List.all_cons, Bool.and_eq_true] at hfp
    have htd : takeDigits (fs ++
        ((if ep.isEmpty then [] else ec :: sgnPart es ++ ep) ++ rest))
        = (fs, (if ep.isEmpty then [] else ec :: sgnPart es ++ ep) ++ rest) :=
      takeDigits_split hfp.2 (headND_exp hec hr)
    simp only [List.isEmpty_iff, List.cons_append, List.append_assoc] at htd hexp
    simp [numFrac, hfp.1, htd, hexp]

theorem headND_frac {fp ep rest : List Char} {ec : Char} {es : Option Char}
    (hec : if ep = [] then ec = 'e' else ec = 'e' ∨ ec = 'E')
    (hr : stopOk rest = true) :
    headNotDigit
      ((if fp.isEmpty then [] else '.' :: fp) ++
       (if ep.isEmpty then [] else ec :: sgnPart es ++ ep) ++ rest)
      = true := by
  cases fp with
  | nil => simpa using @headND_exp ep rest ec es hec hr
  | cons d fs => simp [headNotDigit]

theorem numInt_rt {neg : Bool} {ip fp ep : List Char} {ec : Char}
    {es : Option Char} {rest : List Char}
    (hne : ip ≠ []) (hip : ip.all Char.isDigit = true)
    (hlz : ip.length = 1 ∨ ip.headD '0' ≠ '0')
    (hfp : fp.all Char.isDigit = true)
    (hep : ep.all Char.isDigit = true)
    (hes : es = none ∨ ∃ s, es = some s ∧ (s = '+' ∨ s = '-') ∧ ep ≠ [])
    (hec : if ep = [] then ec = 'e' else ec = 'e' ∨ ec = 'E')
    (hr : stopOk rest = true) :
    numInt neg
      (ip ++ (if fp.isEmpty then [] else '.' :: fp) ++
       (if ep.isEmpty then [] else ec :: sgnPart es ++ ep) ++ rest)
      = some (.std neg ip fp ec es ep, rest) := by
  have hfr := @numFrac_rt neg ip fp ep ec es rest hfp hep hes hec hr
  cases ip with
  | nil => exact absurd rfl hne
  | cons c ds =>
    simp only [List.all_cons, Bool.and_eq_true] at hip
    by_cases hc0 : c = '0'
    · subst hc0
      have hds : ds = [] := by
        rcases hlz with h1 | h1
        · simpa using h1
        · simp at h1
      subst hds
      simpa [numInt] using hfr
    · have htd : takeDigits (ds ++
          ((if fp.isEmpty then [] else '.' :: fp) ++
           ((if ep.isEmpty then [] else ec :: sgnPart es ++ ep) ++ rest)))
          = (ds, (if fp.isEmpty then [] else '.' :: fp) ++
             ((if ep.isEmpty then [] else ec :: sgnPart es ++ ep) ++ rest)) := by
        have := takeDigits_split hip.2 (@headND_frac fp ep rest ec es hec hr)
        simpa using this
      simp only [List.isEmpty_iff, List.cons_append, List.append_assoc] at htd hfr
      simp [numInt, hc0, hip.1, htd, hfr]

theorem parseNumber_rt {neg : Bool} {ip fp ep : List Char} {ec : Char}
    {es : Option Char} {rest : List Char}
    (hne : ip ≠ []) (hip : ip.all Char.isDigit = true)
    (hlz : ip.length = 1 ∨ ip.headD '0' ≠ '0')
    (hfp : fp.all Char.isDigit = true)
    (hep : ep.all Char.isDigit = true)
    (hes : es = none ∨ ∃ s, es = some s ∧ (s = '+' ∨ s = '-') ∧ ep ≠ [])
    (hec : if ep = [] then ec = 'e' else ec = 'e' ∨ ec = 'E')
    (hr : stopOk rest = true) :
    parseNumber (dumpsNum (.std neg ip fp ec es ep) ++ rest)
      = some (.std neg ip fp ec es ep, rest) := by
  have hint := @numInt_rt neg ip fp ep ec es rest hne hip hlz hfp hep hes hec hr
  cases ip with
  | nil => exact absurd rfl hne
  | cons c ds =>
    simp only [List.all_cons, Bool.and_eq_true] at hip
    have hcd : c ≠ '-' := digit_ne hip.1 _ (by decide)
    cases neg with
    | true => simpa [dumpsNum, parseNumber] using hint
    | false => simpa [dumpsNum, parseNumber, hcd] using hint

theorem takeDigits_digits : ∀ cs : List Char,
    (takeDigits cs).1.all Char.isDigit = true := by
  intro cs
  induction cs with
  | nil => rfl
  | cons c t ih =>
    by_cases hc : c.isDigit = true
    · simp [takeDigits, hc, ih]
    · simp [takeDigits, hc]

theorem expSign_cases (rest1 : List Char) :
    (expSign rest1).1 = none ∨
    ∃ s, (s = '+' ∨ s = '-') ∧ (expSign rest1).1 = some s := by
  cases rest1 with
  | nil => exact Or.inl rfl
  | cons c2 t2 =>
    by_cases h2 : (c2 = '+' || c2 = '-') = true
    · refine Or.inr ⟨c2, ?_, by simp [expSign, h2]⟩
      simpa using h2
    · exact Or.inl (by simp [expSign, h2])

theorem numExp_shape {neg : Bool} {ip fp cs : List Char} {n : NumRep}
    {r : List Char} (h : numExp neg ip fp cs = some (n, r)) :
    ∃ ec es ep, n = .std neg ip fp ec es ep ∧
      ep.all Char.isDigit = true ∧
      (es = none ∨ ∃ s, es = some s ∧ (s = '+' ∨ s = '-') ∧ ep ≠ []) ∧
      (if ep = [] then ec = 'e' else ec = 'e' ∨ ec = 'E') := by
  cases cs with
  | nil =>
    refine ⟨'e', none, [], ?_⟩
    simp only [numExp, Option.some.injEq, Prod.mk.injEq] at h
    simp [← h.1]
  | cons c1 rest1 =>
    by_cases he : (c1 = 'e' || c1 = 'E') = true
    · simp only [numExp, he, if_true] at h
      rcases htd : takeDigits (expSign rest1).2 with ⟨ds0, r0⟩
      rw [htd] at h
      cases ds0 with
      | nil =>
        simp only [Option.some.injEq, Prod.mk.injEq] at h
        exact ⟨'e', none, [], by simp [← h.1]⟩
      | cons d ds =>
        simp only [Option.some.injEq, Prod.mk.injEq] at h
        have hdig : (d :: ds).all Char.isDigit = true := by
          have := takeDigits_digits (expSign rest1).2
          rw [htd] at this
          exact this
        refine ⟨c1, (expSign rest1).1, d :: ds, h.1.symm, hdig, ?_, ?_⟩
        · rcases expSign_cases rest1 with h1 | ⟨s, hs, h1⟩ <;> rw [h1]
          · exact Or.inl rfl
          · exact Or.inr ⟨s, rfl, hs, by simp⟩
        · simpa using he
    · simp only [numExp] at h
      rw [if_neg he] at h
      simp only [Option.some.injEq, Prod.mk.injEq] at h
      exact ⟨'e', none, [], by simp [← h.1]⟩

theorem numFrac_shape {neg : Bool} {ip cs : List Char} {n : NumRep}
    {r : List Char} (h : numFrac neg ip cs = some (n, r)) :
    ∃ fp cs2, fp.all Char.isDigit = true ∧
      numExp neg ip fp cs2 = some (n, r) := by
  cases cs with
  | nil => exact ⟨[], [], rfl, by simpa [numFrac] using h⟩
  | cons c1 rest1 =>
    by_cases hc : c1 = '.'
    · subst hc
      cases rest1 with
      | nil => exact ⟨[], ['.'], rfl, by simpa [numFrac] using h⟩
      | cons d t2 =>
        by_cases hd : d.isDigit = true
        · refine ⟨d :: (takeDigits t2).1, (takeDigits t2).2, ?_, ?_⟩
          · simp [hd, takeDigits_digits t2]
          · simpa [numFrac, hd] using h
        · exact ⟨[], '.' :: d :: t2, rfl, by simpa [numFrac, hd] using h⟩
    · exact ⟨[], c1 :: rest1, rfl, by simpa [numFrac, hc] using h⟩

theorem numInt_shape {neg : Bool} {cs : List Char} {n : NumRep}
    {r : List Char} (h : numInt neg cs = some (n, r)) :
    ∃ ip cs2, ip ≠ [] ∧ ip.all Char.isDigit = true ∧
      (ip.length = 1 ∨ ip.headD '0' ≠ '0') ∧
      numFrac neg ip cs2 = some (n, r) := by
  cases cs with
  | nil => simp [numInt] at h
  | cons c t =>
    by_cases hc : c = '0'
    · subst hc
      refine ⟨['0'], t, by simp, by simp, Or.inl rfl, ?_⟩
      simpa [numInt] using h
    · by_cases hd : c.isDigit = true
      · refine ⟨c :: (takeDigits t).1, (takeDigits t).2, by simp, ?_, ?_, ?_⟩
        · simp [hd, takeDigits_digits t]
        · exact Or.inr (by simpa using hc)
        · simpa [numInt, hc, hd] using h
      · simp [numInt, hc, hd] at h

theorem wfNum_intro {neg : Bool} {ip fp ep : List Char} {ec : Char}
    {es : Option Char}
    (h1 : ip ≠ []) (h2 : ip.all Char.isDigit = true)
    (h3 : ip.length = 1 ∨ ip.headD '0' ≠ '0')
    (h4 : fp.all Char.isDigit = true) (h5 : ep.all Char.isDigit = true)
    (h6 : es = none ∨ ∃ s, es = some s ∧ (s = '+' ∨ s = '-') ∧ ep ≠ [])
    (h7 : if ep = [] then ec = 'e' else ec = 'e' ∨ ec = 'E') :
    wfNum (.std neg ip fp ec es ep) = true := by
  rw [List.headD_eq_head?] at h3
  rcases h6 with h6 | ⟨s, hseq, hpm, hnep⟩
  · subst h6
    cases ep with
    | nil =>
      rw [if_pos rfl] at h7
      simp [wfNum, h1, h2, h3, h4, h7]
    | cons d ds =>
      rw [if_neg (by simp)] at h7
      rcases h7 with h7 | h7 <;> simp [wfNum, h1, h2, h3, h4, h5, h7]
  · subst hseq
    cases ep with
    | nil => exact absurd rfl hnep
    | cons d ds =>
      rw [if_neg (by simp)] at h7
      rcases hpm with hs | hs <;> rcases h7 with h7 | h7 <;>
        subst hs <;> simp [wfNum, h1, h2, h3, h4, h5, h7]

theorem parseNumber_wf {cs : List Char} {n : NumRep} {r : List Char}
    (h : parseNumber cs = some (n, r)) : wfNum n = true := by
  have hint : ∃ neg cs1, numInt neg cs1 = some (n, r) := by
    cases cs with
    | nil => simp [parseNumber] at h
    | cons c t =>
      by_cases hc : c = '-'
      · exact ⟨true, t, by simpa [parseNumber, hc] using h⟩
      · exact ⟨false, c :: t, by simpa [parseNumber, hc] using h⟩
  obtain ⟨neg, cs1, hint⟩ := hint
  obtain ⟨ip, cs2, hne, hip, hlz, hfr⟩ := numInt_shape hint
  obtain ⟨fp, cs3, hfp, hexp⟩ := numFrac_shape hfr
  obtain ⟨ec, es, ep, hn, hep, hes, hec⟩ := numExp_shape hexp
  subst hn
  exact wfNum_intro hne hip hlz hfp hep hes hec

theorem hexVal_hexChar : ∀ n, n < 16 → hexVal (hexChar n) = some n := by
  decide

theorem parseStringBody_esc : ∀ (s rest : List Char),
    parseStringBody (escList s ++ '"' :: rest) = some (s, rest) := by
  intro s
  induction s with
  | nil => intro rest; simp [escList, parseStringBody]
  | cons c t ih =>
    intro rest
    by_cases h1 : c = '"'
    · subst h1
      simp [escList, escChar, parseStringBody, parseEscape, escMap, consRes, ih]
    · by_cases h2 : c = '\\'
      · subst h2
        simp [escList, escChar, parseStringBody, parseEscape, escMap, consRes,
          ih]
      · by_cases h3 : c = '\n'
        · subst h3
          simp [escList, escChar, parseStringBody, parseEscape, escMap,
            consRes, ih]
        · by_cases h4 : c = '\r'
          · subst h4
            simp [escList, escChar, parseStringBody, parseEscape, escMap,
              consRes, ih]
          · by_cases h5 : c = '\t'
            · subst h5
              simp [escList, escChar, parseStringBody, parseEscape, escMap,
                consRes, ih]
            · by_cases h6 : c = '\x08'
              · subst h6
                simp [escList, escChar, parseStringBody, parseEscape, escMap,
                  consRes, ih]
              · by_cases h7 : c = '\x0c'
                · subst h7
                  simp [escList, escChar, parseStringBody, parseEscape,
                    escMap, consRes, ih]
                · by_cases h8 : c.toNat < 0x20
                  · have ha : c.toNat / 16 < 16 := by omega
                    have hb : c.toNat % 16 < 16 := by omega
                    have hva := hexVal_hexChar _ ha
                    have hvb := hexVal_hexChar _ hb
                    have hco : c.toNat / 16 * 16 + c.toNat % 16 = c.toNat := by
                      omega
                    have hlt : c.toNat < 0xd800 := by omega
                    simp only [escList, escChar, h1, h2, h3, h4, h5, h6, h7,
                      h8, if_false, if_true, ite_true, ite_false, if_neg,
                      if_pos, List.cons_append, List.append_assoc]
                    have hv0 : hexVal '0' = some 0 := by decide
                    simp [parseStringBody, parseEscape, parseU, hex4, hv0,
                      hva, hvb, consRes, ih, hlt, hco, Char.ofNat_toNat]
                  · simp [escList, escChar, h1, h2, h3, h4, h5, h6, h7, h8,
                      parseStringBody, consRes, ih]

theorem wfNum_elim {neg : Bool} {ip fp ep : List Char} {ec : Char}
    {es : Option Char} (h : wfNum (.std neg ip fp ec es ep) = true) :
    ip ≠ [] ∧ ip.all Char.isDigit = true ∧
    (ip.length = 1 ∨ ip.headD '0' ≠ '0') ∧
    fp.all Char.isDigit = true ∧ ep.all Char.isDigit = true ∧
    (es = none ∨ ∃ s, es = some s ∧ (s = '+' ∨ s = '-') ∧ ep ≠ []) ∧
    (if ep = [] then ec = 'e' else ec = 'e' ∨ ec = 'E') := by
  rw [show (ip.headD '0') = ip.head?.getD '0' from List.headD_eq_head? ip '0']
  cases es with
  | none =>
    cases ep with
    | nil =>
      simp only [wfNum, Bool.and_eq_true] at h
      obtain ⟨⟨⟨⟨⟨⟨hne, hip⟩, hlz⟩, hfp⟩, hep⟩, hes⟩, hec⟩ := h
      refine ⟨by simpa using hne, hip, by simpa using hlz, hfp, hep,
        Or.inl rfl, ?_⟩
      rw [if_pos rfl]
      simpa using hec
    | cons d ds =>
      simp only [wfNum, Bool.and_eq_true] at h
      obtain ⟨⟨⟨⟨⟨⟨hne, hip⟩, hlz⟩, hfp⟩, hep⟩, hes⟩, hec⟩ := h
      refine ⟨by simpa using hne, hip, by simpa using hlz, hfp, hep,
        Or.inl rfl, ?_⟩
      rw [if_neg (by simp)]
      simpa using hec
  | some s =>
    cases ep with
    | nil =>
      simp only [wfNum, Bool.and_eq_true] at h
      obtain ⟨⟨⟨⟨⟨⟨hne, hip⟩, hlz⟩, hfp⟩, hep⟩, hes⟩, hec⟩ := h
      simp at hes
    | cons d ds =>
      simp only [wfNum, Bool.and_eq_true] at h
      obtain ⟨⟨⟨⟨⟨⟨hne, hip⟩, hlz⟩, hfp⟩, hep⟩, hes⟩, hec⟩ := h
      refine ⟨by simpa using hne, hip, by simpa using hlz, hfp, hep, ?_, ?_⟩
      · refine Or.inr ⟨s, rfl, ?_, by simp⟩
        have := hes
        simp only [Bool.and_eq_true, Bool.or_eq_true] at this
        simpa using this.1
      · rw [if_neg (by simp)]
        simpa using hec

theorem jsizeV_pos : ∀ v : JVal, 1 ≤ jsizeV v := by
  intro v
  cases v <;> simp [jsizeV]

theorem dumpsV_head {v : JVal} (h : wfV v = true) :
    ∃ c cs0, dumpsV v = c :: cs0 ∧ jws c = false ∧ c ≠ ']' := by
  cases v with
  | null => exact ⟨'n', _, rfl, by decide, by decide⟩
  | bool b => cases b with
    | true => exact ⟨'t', _, rfl, by decide, by decide⟩
    | false => exact ⟨'f', _, rfl, by decide, by decide⟩
  | str s => exact ⟨'"', _, rfl, by decide, by decide⟩
  | arr l => cases l with
    | nil => exact ⟨'[', _, rfl, by decide, by decide⟩
    | cons x y => exact ⟨'[', _, rfl, by decide, by decide⟩
  | obj m => cases m with
    | nil => exact ⟨'\x7b', _, rfl, by decide, by decide⟩
    | cons k x y => exact ⟨'\x7b', _, rfl, by decide, by decide⟩
  | num n => cases n with
    | nan => exact ⟨'N', _, rfl, by decide, by decide⟩
    | inf b => cases b with
      | true => exact ⟨'-', _, rfl, by decide, by decide⟩
      | false => exact ⟨'I', _, rfl, by decide, by decide⟩
    | std neg ip fp ec es ep =>
      have h2 := wfNum_elim (by simpa [wfV] using h)
      obtain ⟨hne, hip, -, -, -, -, -⟩ := h2
      cases ip with
      | nil => exact absurd rfl hne
      | cons d ds =>
        simp only [List.all_cons, Bool.and_eq_true] at hip
        cases neg with
        | true =>
          refine ⟨'-', (d :: ds) ++ ((if fp.isEmpty then [] else '.' :: fp) ++
            (if ep.isEmpty then [] else ec :: sgnPart es ++ ep)), ?_,
            by decide, by decide⟩
          simp [dumpsV, dumpsNum]
        | false =>
          refine ⟨d, ds ++ ((if fp.isEmpty then [] else '.' :: fp) ++
            (if ep.isEmpty then [] else ec :: sgnPart es ++ ep)), ?_,
            jws_of_digit hip.1, digit_ne hip.1 _ (by decide)⟩
          simp [dumpsV, dumpsNum]

theorem skipWs_dumps {v : JVal} (h : wfV v = true) (X : List Char) :
    skipWs (dumpsV v ++ X) = dumpsV v ++ X := by
  obtain ⟨c, cs0, hd, hws, -⟩ := dumpsV_head h
  rw [hd]
  exact skipWs_cons hws

theorem dumpsElems_cons (hd : JVal) (tl : JElems) :
    ∃ t2, dumpsElems (.cons hd tl) = dumpsV hd ++ t2 := by
  cases tl with
  | nil => exact ⟨[], by simp [dumpsElems]⟩
  | cons x y => exact ⟨',' :: ' ' :: dumpsElems (.cons x y),
      by simp [dumpsElems]⟩

theorem dumpsMems_cons (k : List Char) (v : JVal) (t : JMems) :
    ∃ r2, dumpsMems (.cons k v t) = '"' :: r2 := by
  cases t with
  | nil => exact ⟨escList k ++ '"' :: ':' :: ' ' :: dumpsV v, rfl⟩
  | cons k2 v2 t3 =>
    exact ⟨(escList k ++ '"' :: ':' :: ' ' :: dumpsV v) ++
      ',' :: ' ' :: dumpsMems (.cons k2 v2 t3), by simp [dumpsMems]⟩

theorem parseElems_ws {fuel : Nat} {c : Char} {cs : List Char}
    (h : jws c = true) : parseElems fuel (c :: cs) = parseElems fuel cs := by
  cases fuel with
  | zero => rfl
  | succ f => simp only [parseElems, skipWs, h, if_true]

theorem parseMems_ws {fuel : Nat} {c : Char} {cs : List Char}
    (h : jws c = true) : parseMems fuel (c :: cs) = parseMems fuel cs := by
  cases fuel with
  | zero => rfl
  | succ f => simp only [parseMems, skipWs, h, if_true]

theorem digit_facts {d : Char} (h : d.isDigit = true) :
    d ≠ 'n' ∧ d ≠ 't' ∧ d ≠ 'f' ∧ d ≠ 'N' ∧ d ≠ 'I' ∧ d ≠ '"' ∧
    d ≠ '[' ∧ d ≠ '\x7b' ∧ d ≠ '-' :=
  ⟨digit_ne h _ (by decide), digit_ne h _ (by decide),
   digit_ne h _ (by decide), digit_ne h _ (by decide),
   digit_ne h _ (by decide), digit_ne h _ (by decide),
   digit_ne h _ (by decide), digit_ne h _ (by decide),
   digit_ne h _ (by decide)⟩

theorem rtAll : ∀ fuel : Nat,
    (∀ v rest, wfV v = true → jsizeV v < fuel → stopOk rest = true →
      ∃ w, parseValue fuel (dumpsV v ++ rest) = some (w, rest)) ∧
    (∀ l rest, l ≠ JElems.nil → wfE l = true → jsizeE l < fuel →
      ∃ w, parseElems fuel (dumpsElems l ++ ']' :: rest) = some (w, rest)) ∧
    (∀ m rest, m ≠ JMems.nil → wfM m = true → jsizeM m < fuel →
      ∃ w, parseMems fuel (dumpsMems m ++ '\x7d' :: rest) = some (w, rest))
    := by
  intro fuel
  induction fuel with
  | zero =>
    refine ⟨?_, ?_, ?_⟩
    · intro v rest _ hsz _; exact absurd hsz (Nat.not_lt_zero _)
    · intro l rest _ _ hsz; exact absurd hsz (Nat.not_lt_zero _)
    · intro m rest _ _ hsz; exact absurd hsz (Nat.not_lt_zero _)
  | succ f ih =>
    obtain ⟨ihV, ihE, ihM⟩ := ih
    refine ⟨?_, ?_, ?_⟩
    · intro v rest hwf hsz hstop
      cases v with
      | null => exact ⟨.null, by simp [dumpsV, parseValue, dropLit]⟩
      | bool b =>
        cases b with
        | true => exact ⟨.bool true, by simp [dumpsV, parseValue, dropLit]⟩
        | false => exact ⟨.bool false, by simp [dumpsV, parseValue, dropLit]⟩
      | str s =>
        refine ⟨.str s, ?_⟩
        have hp := parseStringBody_esc s rest
        simp [dumpsV, parseValue, hp]
      | num n =>
        cases n with
        | nan =>
          exact ⟨.num .nan, by simp [dumpsV, dumpsNum, parseValue, dropLit]⟩
        | inf b =>
          cases b with
          | true =>
            exact ⟨.num (.inf true),
              by simp [dumpsV, dumpsNum, parseValue, dropLit]⟩
          | false =>
            exact ⟨.num (.inf false),
              by simp [dumpsV, dumpsNum, parseValue, dropLit]⟩
        | std neg ip fp ec es ep =>
          obtain ⟨hne, hip, hlz, hfp, hep, hes, hec⟩ :=
            @wfNum_elim neg ip fp ep ec es (by simpa only [wfV] using hwf)
          have hnum :=
            @parseNumber_rt neg ip fp ep ec es rest hne hip hlz hfp hep hes
              hec hstop
          refine ⟨.num (.std neg ip fp ec es ep), ?_⟩
          cases ip with
          | nil => exact absurd rfl hne
          | cons d ds =>
            have hd1 : d.isDigit = true := by
              simp only [List.all_cons, Bool.and_eq_true] at hip
              exact hip.1
            obtain ⟨g1, g2, g3, g4, g5, g6, g7, g8, g9⟩ := digit_facts hd1
            cases neg with
            | true =>
              simp [dumpsNum] at hnum
              simp [dumpsV, dumpsNum, parseValue, dropLit, g5, hnum]
            | false =>
              simp [dumpsNum] at hnum
              simp [dumpsV, dumpsNum, parseValue, dropLit, g1, g2, g3, g4,
                g5, g6, g7, g8, g9, hnum]
      | arr l =>
        cases l with
        | nil => exact ⟨.arr .nil, by simp [dumpsV, parseValue, skipWs, jws]⟩
        | cons hd tl =>
          have hwf2 : wfE (.cons hd tl) = true := by simpa [wfV] using hwf
          have hwfp : wfV hd = true ∧ wfE tl = true := by
            simpa [wfE, Bool.and_eq_true] using hwf2
          have hszE : jsizeE (.cons hd tl) < f := by
            simp only [jsizeV] at hsz; omega
          obtain ⟨w, hw⟩ := ihE (.cons hd tl) rest (by simp) hwf2 hszE
          obtain ⟨c0, cs0, hd0, hws0, hrb0⟩ := dumpsV_head hwfp.1
          obtain ⟨t2, ht2⟩ := dumpsElems_cons hd tl
          have hz : dumpsElems (.cons hd tl) ++ ']' :: rest =
              c0 :: (cs0 ++ (t2 ++ ']' :: rest)) := by
            rw [ht2, hd0]; simp
          rw [hz] at hw
          refine ⟨.arr w, ?_⟩
          simp [dumpsV, parseValue, hz, skipWs_cons hws0, hrb0, hw]
      | obj m =>
        cases m with
        | nil => exact ⟨.obj .nil, by simp [dumpsV, parseValue, skipWs, jws]⟩
        | cons k v t =>
          have hwf2 : wfM (.cons k v t) = true := by simpa [wfV] using hwf
          have hszM : jsizeM (.cons k v t) < f := by
            simp only [jsizeV] at hsz; omega
          obtain ⟨w, hw⟩ := ihM (.cons k v t) rest (by simp) hwf2 hszM
          obtain ⟨r2, hr2⟩ := dumpsMems_cons k v t
          have hz : dumpsMems (.cons k v t) ++ '\x7d' :: rest =
              '"' :: (r2 ++ '\x7d' :: rest) := by
            rw [hr2]; simp
          rw [hz] at hw
          refine ⟨.obj w, ?_⟩
          simp [dumpsV, parseValue, hz,
            skipWs_cons (by decide : jws '"' = false), hw]
    · intro l rest hne hwf hsz
      cases l with
      | nil => exact absurd rfl hne
      | cons hd tl =>
        have hwfp : wfV hd = true ∧ wfE tl = true := by
          simpa [wfE, Bool.and_eq_true] using hwf
        cases tl with
        | nil =>
          have hszV : jsizeV hd < f := by simp only [jsizeE] at hsz; omega
          obtain ⟨w, hw⟩ := ihV hd (']' :: rest) hwfp.1 hszV (by simp [stopOk])
          refine ⟨.cons w .nil, ?_⟩
          simp [dumpsElems, parseElems, skipWs, jws, skipWs_dumps hwfp.1, hw]
        | cons x y =>
          have hszs : jsizeV hd < f ∧ jsizeE (.cons x y) < f := by
            simp only [jsizeE] at hsz ⊢
            have h1 := jsizeV_pos hd
            have h2 := jsizeV_pos x
            constructor <;> omega
          obtain ⟨w, hw⟩ := ihV hd
            (',' :: ' ' :: (dumpsElems (.cons x y) ++ ']' :: rest)) hwfp.1
            hszs.1 (by simp [stopOk])
          obtain ⟨w2, hw22⟩ := ihE (.cons x y) rest (by simp) hwfp.2 hszs.2
          refine ⟨.cons w w2, ?_⟩
          simp [dumpsElems, parseElems, skipWs, jws, skipWs_dumps hwfp.1, hw,
            parseElems_ws (by decide : jws ' ' = true), hw22]
    · intro m rest hne hwf hsz
      cases m with
      | nil => exact absurd rfl hne
      | cons k v t =>
        have hwfp : wfV v = true ∧ wfM t = true := by
          simpa [wfM, Bool.and_eq_true] using hwf
        cases t with
        | nil =>
          have hszV : jsizeV v < f := by simp only [jsizeM] at hsz; omega
          obtain ⟨w, hw⟩ := ihV v ('\x7d' :: rest) hwfp.1 hszV
            (by simp [stopOk])
          refine ⟨.cons k w .nil, ?_⟩
          simp [dumpsMems, parseMems, parseStringBody_esc, skipWs, jws,
            skipWs_dumps hwfp.1, hw]
        | cons k2 v2 t3 =>
          have hszs : jsizeV v < f ∧ jsizeM (.cons k2 v2 t3) < f := by
            simp only [jsizeM] at hsz ⊢
            have h1 := jsizeV_pos v
            have h2 := jsizeV_pos v2
            constructor <;> omega
          obtain ⟨w, hw⟩ := ihV v
            (',' :: ' ' :: (dumpsMems (.cons k2 v2 t3) ++ '\x7d' :: rest))
            hwfp.1 hszs.1 (by simp [stopOk])
          obtain ⟨w2, hw22⟩ := ihM (.cons k2 v2 t3) rest (by simp) hwfp.2
            hszs.2
          refine ⟨consKey k w w2, ?_⟩
          simp [dumpsMems, parseMems, parseStringBody_esc, skipWs, jws,
            skipWs_dumps hwfp.1, hw,
            parseMems_ws (by decide : jws ' ' = true), hw22]

theorem mlookup_wf {k : List Char} : ∀ {m : JMems} {w : JVal},
    wfM m = true → mlookup k m = some w → wfV w = true
  | .nil, w, hm, h => by simp [mlookup] at h
  | .cons k2 v2 t, w, hm, h => by
    simp only [wfM, Bool.and_eq_true] at hm
    by_cases he : k2 = k
    · simp only [mlookup, he, if_pos] at h
      rw [← Option.some.inj h]
      exact hm.1
    · simp only [mlookup, he, if_false, ite_false] at h
      exact mlookup_wf hm.2 (by simpa [he] using h)

theorem mremove_wf {k : List Char} : ∀ {m : JMems},
    wfM m = true → wfM (mremove k m) = true
  | .nil, hm => by simp [mremove, wfM]
  | .cons k2 v2 t, hm => by
    simp only [wfM, Bool.and_eq_true] at hm
    by_cases he : k2 = k
    · simpa [mremove, he] using mremove_wf hm.2
    · simp [mremove, he, wfM, hm.1, mremove_wf hm.2]

theorem consKey_wf {k : List Char} {v : JVal} {m : JMems}
    (hv : wfV v = true) (hm : wfM m = true) : wfM (consKey k v m) = true := by
  unfold consKey
  cases hl : mlookup k m with
  | none => simp [wfM, hv, hm]
  | some w => simp [wfM, mlookup_wf hm hl, mremove_wf hm]

theorem matchDrop_shape {L t : List Char} {a v : JVal} {r : List Char}
    (h : (match dropLit L t with
          | some r2 => some (a, r2)
          | none => none) = some (v, r)) : v = a := by
  cases hdl : dropLit L t with
  | none => rw [hdl] at h; exact absurd h (by simp)
  | some q =>
    rw [hdl] at h
    simp only [Option.some.injEq, Prod.mk.injEq] at h
    exact h.1.symm

theorem wfPres : ∀ fuel : Nat,
    (∀ cs v r, parseValue fuel cs = some (v, r) → wfV v = true) ∧
    (∀ cs l r, parseElems fuel cs = some (l, r) → wfE l = true) ∧
    (∀ cs m r, parseMems fuel cs = some (m, r) → wfM m = true) := by
  intro fuel
  induction fuel with
  | zero =>
    refine ⟨?_, ?_, ?_⟩ <;> intro cs x r h <;>
      simp [parseValue, parseElems, parseMems] at h
  | succ f ih =>
    obtain ⟨ihV, ihE, ihM⟩ := ih
    refine ⟨?_, ?_, ?_⟩
    · intro cs v r h
      cases cs with
      | nil => simp [parseValue] at h
      | cons c t =>
        simp only [parseValue] at h
        by_cases h1 : c = 'n'
        · rw [if_pos h1] at h
          rw [matchDrop_shape h]
          simp [wfV]
        · rw [if_neg h1] at h
          by_cases h2 : c = 't'
          · rw [if_pos h2] at h
            rw [matchDrop_shape h]
            simp [wfV]
          · rw [if_neg h2] at h
            by_cases h3 : c = 'f'
            · rw [if_pos h3] at h
              rw [matchDrop_shape h]
              simp [wfV]
            · rw [if_neg h3] at h
              by_cases h4 : c = 'N'
              · rw [if_pos h4] at h
                rw [matchDrop_shape h]
                simp [wfV, wfNum]
              · rw [if_neg h4] at h
                by_cases h5 : c = 'I'
                · rw [if_pos h5] at h
                  rw [matchDrop_shape h]
                  simp [wfV, wfNum]
                · rw [if_neg h5] at h
                  by_cases h6 : c = '"'
                  · rw [if_pos h6] at h
                    cases hps : parseStringBody t with
                    | none => rw [hps] at h; exact absurd h (by simp)
                    | some p =>
                      rw [hps] at h
                      simp only [Option.some.injEq, Prod.mk.injEq] at h
                      rw [← h.1]
                      simp [wfV]
                  · rw [if_neg h6] at h
                    by_cases h7 : c = '['
                    · rw [if_pos h7] at h
                      cases hsw : skipWs t with
                      | nil => rw [hsw] at h; exact absurd h (by simp)
                      | cons d r2 =>
                        rw [hsw] at h
                        dsimp only at h
                        by_cases hd : d = ']'
                        · rw [if_pos hd] at h
                          simp only [Option.some.injEq, Prod.mk.injEq] at h
                          rw [← h.1]
                          simp [wfV, wfE]
                        · rw [if_neg hd] at h
                          cases hpe : parseElems f t with
                          | none => rw [hpe] at h; exact absurd h (by simp)
                          | some p =>
                            obtain ⟨l, rest⟩ := p
                            rw [hpe] at h
                            simp only [Option.some.injEq, Prod.mk.injEq] at h
                            rw [← h.1]
                            simpa [wfV] using ihE _ _ _ hpe
                    · rw [if_neg h7] at h
                      by_cases h8 : c = '\x7b'
                      · rw [if_pos h8] at h
                        cases hsw : skipWs t with
                        | nil => rw [hsw] at h; exact absurd h (by simp)
                        | cons d r2 =>
                          rw [hsw] at h
                          dsimp only at h
                          by_cases hd : d = '\x7d'
                          · rw [if_pos hd] at h
                            simp only [Option.some.injEq, Prod.mk.injEq] at h
                            rw [← h.1]
                            simp [wfV, wfM]
                          · rw [if_neg hd] at h
                            cases hpm : parseMems f t with
                            | none => rw [hpm] at h; exact absurd h (by simp)
                            | some p =>
                              obtain ⟨m, rest⟩ := p
                              rw [hpm] at h
                              simp only [Option.some.injEq,
                                Prod.mk.injEq] at h
                              rw [← h.1]
                              simpa [wfV] using ihM _ _ _ hpm
                      · rw [if_neg h8] at h
                        by_cases h9 : c = '-'
                        · rw [if_pos h9] at h
                          cases hdl : dropLit
                              ['I', 'n', 'f', 'i', 'n', 'i', 't', 'y'] t with
                          | some r2 =>
                            rw [hdl] at h
                            simp only [Option.some.injEq,
                              Prod.mk.injEq] at h
                            rw [← h.1]
                            simp [wfV, wfNum]
                          | none =>
                            rw [hdl] at h
                            cases hpn : parseNumber (c :: t) with
                            | none => rw [hpn] at h; exact absurd h (by simp)
                            | some p =>
                              obtain ⟨n, rest⟩ := p
                              rw [hpn] at h
                              simp only [Option.some.injEq,
                                Prod.mk.injEq] at h
                              rw [← h.1]
                              simpa [wfV] using parseNumber_wf hpn
                        · rw [if_neg h9] at h
                          cases hpn : parseNumber (c :: t) with
                          | none => rw [hpn] at h; exact absurd h (by simp)
                          | some p =>
                            obtain ⟨n, rest⟩ := p
                            rw [hpn] at h
                            simp only [Option.some.injEq, Prod.mk.injEq] at h
                            rw [← h.1]
                            simpa [wfV] using parseNumber_wf hpn
    · intro cs l r h
      simp only [parseElems] at h
      cases hpv : parseValue f (skipWs cs) with
      | none => rw [hpv] at h; exact absurd h (by simp)
      | some p =>
        obtain ⟨v, r1⟩ := p
        rw [hpv] at h
        dsimp only at h
        cases hsw : skipWs r1 with
        | nil => rw [hsw] at h; exact absurd h (by simp)
        | cons d r2 =>
          rw [hsw] at h
          dsimp only at h
          by_cases hd : d = ','
          · rw [if_pos hd] at h
            cases hpe : parseElems f r2 with
            | none => rw [hpe] at h; exact absurd h (by simp)
            | some q =>
              obtain ⟨l2, rest⟩ := q
              rw [hpe] at h
              simp only [Option.some.injEq, Prod.mk.injEq] at h
              rw [← h.1]
              simp [wfE, ihV _ _ _ hpv, ihE _ _ _ hpe]
          · rw [if_neg hd] at h
            by_cases hd2 : d = ']'
            · rw [if_pos hd2] at h
              simp only [Option.some.injEq, Prod.mk.injEq] at h
              rw [← h.1]
              simp [wfE, ihV _ _ _ hpv]
            · rw [if_neg hd2] at h
              exact absurd h (by simp)
    · intro cs m r h
      simp only [parseMems] at h
      cases hsw : skipWs cs with
      | nil => rw [hsw] at h; exact absurd h (by simp)
      | cons c r0 =>
        rw [hsw] at h
        dsimp only at h
        by_cases hc : c = '"'
        · rw [if_pos hc] at h
          cases hps : parseStringBody r0 with
          | none => rw [hps] at h; exact absurd h (by simp)
          | some p =>
            obtain ⟨k, r1⟩ := p
            rw [hps] at h
            dsimp only at h
            cases hsw2 : skipWs r1 with
            | nil => rw [hsw2] at h; exact absurd h (by simp)
            | cons d r2 =>
              rw [hsw2] at h
              dsimp only at h
              by_cases hd : d = ':'
              · rw [if_pos hd] at h
                cases hpv : parseValue f (skipWs r2) with
                | none => rw [hpv] at h; exact absurd h (by simp)
                | some q =>
                  obtain ⟨v, r3⟩ := q
                  rw [hpv] at h
                  dsimp only at h
                  cases hsw3 : skipWs r3 with
                  | nil => rw [hsw3] at h; exact absurd h (by simp)
                  | cons e r4 =>
                    rw [hsw3] at h
                    dsimp only at h
                    by_cases he : e = ','
                    · rw [if_pos he] at h
                      cases hpm : parseMems f r4 with
                      | none => rw [hpm] at h; exact absurd h (by simp)
                      | some q2 =>
                        obtain ⟨m2, rest⟩ := q2
                        rw [hpm] at h
                        simp only [Option.some.injEq, Prod.mk.injEq] at h
                        rw [← h.1]
                        exact consKey_wf (ihV _ _ _ hpv) (ihM _ _ _ hpm)
                    · rw [if_neg he] at h
                      by_cases he2 : e = '\x7d'
                      · rw [if_pos he2] at h
                        simp only [Option.some.injEq, Prod.mk.injEq] at h
                        rw [← h.1]
                        simp [wfM, ihV _ _ _ hpv]
                      · rw [if_neg he2] at h
                        exact absurd h (by simp)
              · rw [if_neg hd] at h
                exact absurd h (by simp)
        · rw [if_neg hc] at h
          exact absurd h (by simp)

mutual
theorem szV : ∀ v : JVal, wfV v = true → jsizeV v ≤ (dumpsV v).length
  | .null, h => by simp [jsizeV, dumpsV]
  | .bool b, h => by cases b <;> simp [jsizeV, dumpsV]
  | .str s, h => by simp [jsizeV, dumpsV]
  | .num n, h => by
    cases n with
    | nan => simp [jsizeV, dumpsV, dumpsNum]
    | inf b => cases b <;> simp [jsizeV, dumpsV, dumpsNum]
    | std neg ip fp ec es ep =>
      have h2 := @wfNum_elim neg ip fp ep ec es (by simpa only [wfV] using h)
      obtain ⟨hne, -, -, -, -, -, -⟩ := h2
      cases ip with
      | nil => exact absurd rfl hne
      | cons d ds =>
        cases neg <;> simp [jsizeV, dumpsV, dumpsNum]
  | .arr l, h => by
    cases l with
    | nil => simp [jsizeV, jsizeE, dumpsV]
    | cons x y =>
      have h2 := szE (.cons x y) (by simpa [wfV] using h)
      simp only [jsizeV, dumpsV, List.length_cons, List.length_append,
        List.length_singleton] at h2 ⊢
      omega
  | .obj m, h => by
    cases m with
    | nil => simp [jsizeV, jsizeM, dumpsV]
    | cons k x y =>
      have h2 := szM (.cons k x y) (by simpa [wfV] using h)
      simp only [jsizeV, dumpsV, List.length_cons, List.length_append,
        List.length_singleton] at h2 ⊢
      omega

theorem szE : ∀ l : JElems, wfE l = true → jsizeE l ≤ (dumpsElems l).length + 1
  | .nil, h => by simp [jsizeE, dumpsElems]
  | .cons v t, h => by
    have hp : wfV v = true ∧ wfE t = true := by
      simpa [wfE, Bool.and_eq_true] using h
    have h1 := szV v hp.1
    cases t with
    | nil =>
      simp only [jsizeE, dumpsElems]
      omega
    | cons x y =>
      have h2 := szE (.cons x y) hp.2
      simp only [jsizeE, dumpsElems, List.length_append,
        List.length_cons] at h2 ⊢
      omega

theorem szM : ∀ m : JMems, wfM m = true → jsizeM m ≤ (dumpsMems m).length + 1
  | .nil, h => by simp [jsizeM, dumpsMems]
  | .cons k v t, h => by
    have hp : wfV v = true ∧ wfM t = true := by
      simpa [wfM, Bool.and_eq_true] using h
    have h1 := szV v hp.1
    cases t with
    | nil =>
      simp only [jsizeM, dumpsMems, List.length_cons, List.length_append]
      omega
    | cons k2 v2 t3 =>
      have h2 := szM (.cons k2 v2 t3) hp.2
      simp only [jsizeM, dumpsMems, List.length_append,
        List.length_cons] at h2 ⊢
      omega
end

theorem loads_dumps {v : JVal} (h : wfV v = true) :
    ∃ w, loads (dumpsV v) = some w := by
  have hsz := szV v h
  obtain ⟨w, hw⟩ := (rtAll (2 * (dumpsV v).length + 2)).1 v [] h (by omega)
    (by rfl)
  refine ⟨w, ?_⟩
  have hsw : skipWs (dumpsV v) = dumpsV v := by
    simpa using skipWs_dumps h []
  simp only [loads, hsw]
  rw [show dumpsV v ++ ([] : List Char) = dumpsV v from by simp] at hw
  rw [hw]
  rfl

theorem loads_wf {cs : List Char} {v : JVal} (h : loads cs = some v) :
    wfV v = true := by
  simp only [loads] at h
  cases hpv : parseValue (2 * cs.length + 2) (skipWs cs) with
  | none => rw [hpv] at h; exact absurd h (by simp)
  | some p =>
    obtain ⟨w, r⟩ := p
    rw [hpv] at h
    dsimp only at h
    by_cases hr : skipWs r = []
    · rw [if_pos hr] at h
      rw [← Option.some.inj h]
      exact (wfPres _).1 _ _ _ hpv
    · rw [if_neg hr] at h
      exact absurd h (by simp)

theorem loads_empty_array : loads ['[', ']'] = some (.arr .nil) := rfl

theorem objectPhase_valid (msg : List Char) :
    ∃ w, loads (objectPhase msg) = some w := by
  unfold objectPhase
  cases hso : searchObject msg with
  | some cand =>
    dsimp only
    cases hld : loads cand with
    | some v =>
      simp only [hld]
      exact loads_dumps (loads_wf hld)
    | none =>
      simp only [hld]
      exact ⟨.arr .nil, loads_empty_array⟩
  | none => exact ⟨.arr .nil, loads_empty_array⟩

theorem pjf_valid (msg : List Char) :
    ∃ w, loads (parse_json_format msg) = some w := by
  unfold parse_json_format
  cases hsa : searchArray msg with
  | some cand =>
    dsimp only
    cases hld : loads cand with
    | some v =>
      simp only [hld]
      exact loads_dumps (loads_wf hld)
    | none =>
      simp only [hld]
      exact objectPhase_valid msg
  | none => exact objectPhase_valid msg

theorem assignElems_isSome : ∀ (i : Nat) (l : JElems),
    (assignElems i l).isSome = allObjs l
  | i, .nil => by simp [assignElems, allObjs]
  | i, .cons (.obj m) t => by
    have ih := assignElems_isSome (i + 1) t
    cases h : assignElems (i + 1) t with
    | none => simp [assignElems, allObjs, h, ← ih]
    | some t2 => simp [assignElems, allObjs, h, ← ih]
  | i, .cons .null t => by simp [assignElems, allObjs]
  | i, .cons (.bool b) t => by simp [assignElems, allObjs]
  | i, .cons (.num n) t => by simp [assignElems, allObjs]
  | i, .cons (.str s) t => by simp [assignElems, allObjs]
  | i, .cons (.arr a) t => by simp [assignElems, allObjs]

theorem pyIter_isSome (v : JVal) : (pyIter v).isSome = assignable (some v) := by
  cases v with
  | arr l =>
    have h := assignElems_isSome 0 l
    cases h2 : assignElems 0 l with
    | none => simp [pyIter, assignable, h2, ← h]
    | some l2 => simp [pyIter, assignable, h2, ← h]
  | obj m => cases m <;> simp [pyIter, assignable]
  | str s => cases s <;> simp [pyIter, assignable]
  | null => simp [pyIter, assignable]
  | bool b => simp [pyIter, assignable]
  | num n => simp [pyIter, assignable]

theorem assignElems_of_allObjs : ∀ (i : Nat) (l : JElems),
    allObjs l = true → assignElems i l = some (assignAll i l)
  | i, .nil, h => by simp [assignElems, assignAll]
  | i, .cons (.obj m) t, h => by
    have ih := assignElems_of_allObjs (i + 1) t (by simpa [allObjs] using h)
    simp [assignElems, assignAll, ih]
  | i, .cons .null t, h => by simp [allObjs] at h
  | i, .cons (.bool b) t, h => by simp [allObjs] at h
  | i, .cons (.num n) t, h => by simp [allObjs] at h
  | i, .cons (.str s) t, h => by simp [allObjs] at h
  | i, .cons (.arr a) t, h => by simp [allObjs] at h

theorem elen_assignAll : ∀ (i : Nat) (l : JElems),
    elen (assignAll i l) = elen l
  | i, .nil => rfl
  | i, .cons (.obj m) t => by
    simp [assignAll, elen, elen_assignAll (i + 1) t]
  | i, .cons .null t => by simp [assignAll, elen, elen_assignAll (i + 1) t]
  | i, .cons (.bool b) t => by
    simp [assignAll, elen, elen_assignAll (i + 1) t]
  | i, .cons (.num n) t => by
    simp [assignAll, elen, elen_assignAll (i + 1) t]
  | i, .cons (.str s) t => by
    simp [assignAll, elen, elen_assignAll (i + 1) t]
  | i, .cons (.arr a) t => by
    simp [assignAll, elen, elen_assignAll (i + 1) t]

theorem flattenAll_length : ∀ {ms : List Message} {out : List Message},
    flattenAll ms = some out → out.length = ms.length := by
  intro ms
  induction ms with
  | nil => intro out h; simp [flattenAll] at h; simp [← h]
  | cons m t ih =>
    intro out h
    simp only [flattenAll] at h
    cases hf : flattenMsg m with
    | none => rw [hf] at h; exact absurd h (by simp)
    | some m2 =>
      rw [hf] at h
      dsimp only at h
      cases hr : flattenAll t with
      | none => rw [hr] at h; exact absurd h (by simp)
      | some t2 =>
        rw [hr] at h
        dsimp only at h
        rw [← Option.some.inj h]
        simp [ih hr]

theorem flattenAll_get? : ∀ {ms : List Message} {out : List Message},
    flattenAll ms = some out → ∀ i : Nat,
      out.get? i = (ms.get? i).bind flattenMsg := by
  intro ms
  induction ms with
  | nil =>
    intro out h i
    simp [flattenAll] at h
    subst h
    simp
  | cons m t ih =>
    intro out h i
    simp only [flattenAll] at h
    cases hf : flattenMsg m with
    | none => rw [hf] at h; exact absurd h (by simp)
    | some m2 =>
      rw [hf] at h
      dsimp only at h
      cases hr : flattenAll t with
      | none => rw [hr] at h; exact absurd h (by simp)
      | some t2 =>
        rw [hr] at h
        dsimp only at h
        rw [← Option.some.inj h]
        cases i with
        | zero => simp [hf]
        | succ j => simpa using ih hr j

theorem tcif_parts {msgs : List Message} {tools : JVal} {out : List Message}
    (h : tool_calling_input_format msgs tools = some out) :
    ∃ ms last c, flattenAll msgs = some ms ∧ ms.getLast? = some last ∧
      last.content = some c ∧
      out = ms.dropLast ++
        [{ last with content := some (c ++ instrBlock tools) }] := by
  simp only [tool_calling_input_format] at h
  cases hf : flattenAll msgs with
  | none => rw [hf] at h; exact absurd h (by simp)
  | some ms =>
    rw [hf] at h
    dsimp only at h
    cases hl : ms.getLast? with
    | none => rw [hl] at h; exact absurd h (by simp)
    | some last =>
      rw [hl] at h
      dsimp only at h
      cases hc : last.content with
      | none => rw [hc] at h; exact absurd h (by simp)
      | some c =>
        rw [hc] at h
        dsimp only at h
        exact ⟨ms, last, c, rfl, hl, hc, (Option.some.inj h).symm⟩

theorem dropLast_get? {α : Type} (l : List α) (i : Nat)
    (h : i + 1 < l.length) : l.dropLast.get? i = l.get? i := by
  have h2 : i < l.length - 1 := by omega
  rw [List.dropLast_eq_take, List.get?_take h2]

/-! ## The claims -/

/-- C1, counterexample: on the input consisting of the object text
(quote a quote colon space 1 in braces), the object pattern matches, the
candidate parses as a json object, and the for-loop of parse_tool_calls
then iterates over the dict keys; the item assignment on the first key (a
string) raises TypeError, so the extractor raises to the caller instead of
returning a sequence. -/
theorem c1_extraction_raises_counterexample :
    parse_tool_calls ("\x7b\"a\": 1\x7d".data) = none := by rfl

/-- C1, amended: for every input text the extractor terminates; it returns
normally exactly when the value recovered by the json phase is iterable
with dict elements (a list of dicts, the empty dict, or the empty string;
in practice a list of dicts or the empty dict), and whenever neither
pattern finds a candidate it returns the empty sequence; on a nonempty
object, or a list with a non-dict element, it raises TypeError instead of
returning. -/
theorem c1_extraction_total_amended (msg : List Char) :
    ((parse_tool_calls msg).isSome = true ↔
      assignable (loads (parse_json_format msg)) = true) ∧
    (searchArray msg = none → searchObject msg = none →
      parse_tool_calls msg = some (.arr .nil)) := by
  constructor
  · obtain ⟨w, hw⟩ := pjf_valid msg
    simp only [parse_tool_calls, hw]
    rw [pyIter_isSome w]
  · intro h1 h2
    simp only [parse_tool_calls, parse_json_format, objectPhase, h1, h2]
    rw [loads_empty_array]
    simp [pyIter, assignElems]

/-- C1, witness for the amended claim at the concrete input
"no json here": neither pattern matches and the extractor returns the
empty sequence. -/
theorem c1_extraction_total_amended_witness :
    parse_tool_calls ("no json here".data) = some (.arr .nil) :=
  (c1_extraction_total_amended ("no json here".data)).2 (by rfl) (by rfl)

/-- C2, counterexample: extracting from the one-element array whose object
has no name key yields a one-element result whose element still has no
name key; the element is kept (with id and type added), not dropped, so
the claimed drop-on-missing-name behavior does not happen. -/
theorem c2_nameless_kept_counterexample :
    singleNamelessElem (parse_tool_calls ("[\x7b\"x\": 1\x7d]".data))
      = true := by rfl

/-- C2, amended: during extraction post-processing no element is dropped:
whenever the recovered value is a list of dicts, every element, including
one lacking a name key, is retained in the result with only the id and
type assignments applied, and the element count is unchanged. -/
theorem c2_elements_retained_amended (msg : List Char) (l : JElems)
    (h1 : loads (parse_json_format msg) = some (.arr l))
    (h2 : allObjs l = true) :
    parse_tool_calls msg = some (.arr (assignAll 0 l)) ∧
    elen (assignAll 0 l) = elen l := by
  refine ⟨?_, elen_assignAll 0 l⟩
  simp only [parse_tool_calls, h1]
  simp [pyIter, assignElems_of_allObjs 0 l h2]

/-- C2, witness for the amended claim at the one-element nameless-object
input. -/
theorem c2_elements_retained_amended_witness :
    parse_tool_calls ("[\x7b\"x\": 1\x7d]".data) =
      some (.arr (assignAll 0 (JElems.cons (.obj (.cons ['x']
        (.num (.std false ['1'] [] 'e' none [])) .nil)) .nil))) ∧
    elen (assignAll 0 (JElems.cons (.obj (.cons ['x']
      (.num (.std false ['1'] [] 'e' none [])) .nil)) .nil)) =
    elen (JElems.cons (.obj (.cons ['x']
      (.num (.std false ['1'] [] 'e' none [])) .nil)) .nil) :=
  c2_elements_retained_amended ("[\x7b\"x\": 1\x7d]".data)
    (JElems.cons (.obj (.cons ['x']
      (.num (.std false ['1'] [] 'e' none [])) .nil)) .nil)
    (by rfl) (by rfl)

/-- C3, counterexample: on the nested-parameters text the pattern the
implementation uses does match (the lazy dot-star extends across the inner
braces to the final brace-bracket), the candidate is the whole array, the
parse succeeds, and the result is its re-serialization, not the empty
array literal. -/
theorem c3_nested_parse_succeeds_counterexample :
    parse_json_format
        ("[\x7b\"name\":\"f\",\"parameters\":\x7b\"nested\":\x7b\"a\":1\x7d\x7d\x7d]".data)
      = ("[\x7b\"name\": \"f\", \"parameters\": \x7b\"nested\": \x7b\"a\": 1\x7d\x7d\x7d]".data)
    ∧ ("[\x7b\"name\": \"f\", \"parameters\": \x7b\"nested\": \x7b\"a\": 1\x7d\x7d\x7d]".data)
      ≠ ("[]".data) :=
  ⟨by rfl, by decide⟩

/-- C3, amended: under the pattern the implementation uses, extracting
from the nested-parameters text succeeds: the result is one tool call with
the nested parameters object preserved intact and the generated id and the
function type appended (ids shown are those of the spec-modelled
generator). -/
theorem c3_nested_extraction_amended :
    parse_tool_calls
        ("[\x7b\"name\":\"f\",\"parameters\":\x7b\"nested\":\x7b\"a\":1\x7d\x7d\x7d]".data)
      = some (.arr (.cons (.obj (.cons "name".data (.str ['f'])
          (.cons "parameters".data (.obj (.cons "nested".data
            (.obj (.cons ['a'] (.num (.std false ['1'] [] 'e' none []))
              .nil)) .nil))
          (.cons "id".data (.str "call_0".data)
          (.cons "type".data (.str "function".data) .nil))))) .nil)) := by
  rfl

/-- C4, counterexample: on a tool-role message with id 42 and content OK,
the content the code builds differs from the template the claim states
(the code writes no space before the parenthesis, puts the space before
the colon, and appends a trailing space after the final period). -/
theorem c4_template_counterexample :
    (flattenMsg ⟨some "tool", some "OK", none, some "42"⟩).bind
        Message.content
      = some "The result of the execution of function(id :42) is: OK. " ∧
    "The result of the execution of function(id :42) is: OK. " ≠
      spec_template "42" "OK" :=
  ⟨by rfl, by decide⟩

/-- C4, amended: every message whose role is tool and which carries no
tool_calls key is rewritten to role user, its tool_call_id key is dropped,
and its content becomes the fixed template of the source, which reads:
The result of the execution of function(id :(id)) is: (content).
followed by a trailing space. -/
theorem c4_tool_role_rewrite_amended (m : Message) (tcid c : String)
    (h1 : m.tool_calls = none) (h2 : m.role = some "tool")
    (h3 : m.tool_call_id = some tcid) (h4 : m.content = some c) :
    flattenMsg m = some ⟨some "user",
      some ("The result of the execution of function(id :" ++ tcid ++
        ") is: " ++ c ++ ". "), none, none⟩ := by
  simp only [flattenMsg, h1, h2, h3, h4]
  simp

/-- C4, witness for the amended claim at a concrete tool-result message. -/
theorem c4_tool_role_rewrite_amended_witness :
    flattenMsg ⟨some "tool", some "OK", none, some "42"⟩ =
      some ⟨some "user",
        some "The result of the execution of function(id :42) is: OK. ",
        none, none⟩ :=
  c4_tool_role_rewrite_amended ⟨some "tool", some "OK", none, some "42"⟩
    "42" "OK" rfl rfl rfl rfl

/-- C5: whenever tool_calling_input_format returns, it returns exactly one
output message per input message in the same order: the length is
preserved and every non-final position of the output is the per-message
normalization of the same position of the input (the final position
additionally receives the injected instruction block, see the frame
property of the injector). -/
theorem c5_flatten_preserves_shape (msgs : List Message) (tools : JVal)
    (out : List Message)
    (h : tool_calling_input_format msgs tools = some out) :
    out.length = msgs.length ∧
    ∀ i : Nat, i + 1 < msgs.length →
      out.get? i = (msgs.get? i).bind flattenMsg := by
  obtain ⟨ms, last, c, hf, hl, hc, hout⟩ := tcif_parts h
  have hlen := flattenAll_length hf
  have hne : ms ≠ [] := by
    intro he
    rw [he] at hl
    simp at hl
  have hpos : 0 < ms.length := List.length_pos.mpr hne
  have hlen2 : out.length = ms.length := by
    rw [hout]
    simp only [List.length_append, List.length_dropLast,
      List.length_singleton]
    omega
  refine ⟨by rw [hlen2, hlen], ?_⟩
  intro i hi
  have hi2 : i < ms.dropLast.length := by
    simp only [List.length_dropLast]
    omega
  rw [hout, List.get?_append hi2, dropLast_get? ms i (by omega),
    flattenAll_get? hf i]

/-- C5, witness at a two-message conversation. -/
theorem c5_flatten_preserves_shape_witness :
    ∃ out, tool_calling_input_format
        [⟨some "user", some "a", none, none⟩,
         ⟨some "user", some "b", none, none⟩] (.arr .nil) = some out ∧
      out.length = 2 ∧
      ∀ i : Nat, i + 1 < 2 →
        out.get? i = ([⟨some "user", some "a", none, none⟩,
          (⟨some "user", some "b", none, none⟩ : Message)].get? i).bind
          flattenMsg := by
  obtain ⟨out, hout⟩ : ∃ out, tool_calling_input_format
      [⟨some "user", some "a", none, none⟩,
       ⟨some "user", some "b", none, none⟩] (.arr .nil) = some out :=
    ⟨_, rfl⟩
  obtain ⟨h1, h2⟩ := c5_flatten_preserves_shape _ _ _ hout
  exact ⟨out, hout, h1, h2⟩

/-- C6: calling tool_calling_input_format with an empty message sequence
fails (the final-message index raises IndexError) rather than
succeeding. -/
theorem c6_empty_messages_fails (tools : JVal) :
    tool_calling_input_format [] tools = none := rfl

/-- C7: the instruction block, which is the fixed prefix sentence followed
by the json-serialized tool definitions followed by the fixed suffix
sentence, is appended to the content of the last message only: relative to
the normalized message sequence, every non-final message is unchanged, no
message is reordered or dropped, and the final message differs exactly by
the appended block. -/
theorem c7_injection_last_only (msgs : List Message) (tools : JVal)
    (out norm : List Message)
    (h : tool_calling_input_format msgs tools = some out)
    (hn : flattenAll msgs = some norm) :
    out.length = norm.length ∧
    (∀ i : Nat, i + 1 < out.length → out.get? i = norm.get? i) ∧
    ∃ last c, norm.getLast? = some last ∧ last.content = some c ∧
      out.getLast? = some { last with
        content := some (c ++ (prefix_prompt ++ String.mk (dumpsV tools) ++ suffix_prompt)) } := by
  obtain ⟨ms, last, c, hf, hl, hc, hout⟩ := tcif_parts h
  have hms : ms = norm := by
    rw [hf] at hn
    exact Option.some.inj hn
  subst hms
  have hne : ms ≠ [] := by
    intro he
    rw [he] at hl
    simp at hl
  have hpos : 0 < ms.length := List.length_pos.mpr hne
  have hlen2 : out.length = ms.length := by
    rw [hout]
    simp only [List.length_append, List.length_dropLast,
      List.length_singleton]
    omega
  refine ⟨hlen2, ?_, last, c, hl, hc, ?_⟩
  · intro i hi
    rw [hout, List.get?_append (by simp only [List.length_dropLast]; omega),
      dropLast_get? ms i (by omega)]
  · rw [hout, List.getLast?_concat]
    rfl

/-- C7, witness at a two-message conversation with one tool definition
list. -/
theorem c7_injection_last_only_witness :
    ∃ out norm,
      tool_calling_input_format
        [⟨some "user", some "a", none, none⟩,
         ⟨some "user", some "b", none, none⟩] (.arr .nil) = some out ∧
      flattenAll [⟨some "user", some "a", none, none⟩,
        ⟨some "user", some "b", none, none⟩] = some norm ∧
      out.length = norm.length ∧
      (∀ i : Nat, i + 1 < out.length → out.get? i = norm.get? i) ∧
      ∃ last c, norm.getLast? = some last ∧ last.content = some c ∧
        out.getLast? = some { last with
          content := some (c ++ (prefix_prompt ++ String.mk (dumpsV (.arr .nil)) ++ suffix_prompt)) } := by
  obtain ⟨out, hout⟩ : ∃ out, tool_calling_input_format
      [⟨some "user", some "a", none, none⟩,
       ⟨some "user", some "b", none, none⟩] (.arr .nil) = some out :=
    ⟨_, rfl⟩
  obtain ⟨norm, hnorm⟩ : ∃ norm, flattenAll
      [⟨some "user", some "a", none, none⟩,
       ⟨some "user", some "b", none, none⟩] = some norm :=
    ⟨_, rfl⟩
  obtain ⟨h1, h2, h3⟩ := c7_injection_last_only _ _ _ _ hout hnorm
  exact ⟨out, norm, hout, hnorm, h1, h2, h3⟩

/-- C8: extraction first searches for an array-shaped substring and, when
that candidate parses, its re-serialization is the result and the object
pattern is never consulted; when the array search fails or its candidate
does not parse, the result is exactly the object-pattern phase, which in
turn returns the re-serialization of a parsed object candidate or the
empty-array literal. -/
theorem c8_array_first_then_object (msg : List Char) :
    parse_json_format msg =
      (((searchArray msg).bind loads).map dumpsV).getD (objectPhase msg) ∧
    objectPhase msg =
      (((searchObject msg).bind loads).map dumpsV).getD ['[', ']'] := by
  constructor
  · unfold parse_json_format
    cases hsa : searchArray msg with
    | none => simp
    | some cand =>
      dsimp only
      cases hld : loads cand with
      | none => simp [hld]
      | some v => simp [hld]
  · unfold objectPhase
    cases hso : searchObject msg with
    | none => simp
    | some cand =>
      dsimp only
      cases hld : loads cand with
      | none => simp [hld]
      | some v => simp [hld]

/-- C9: for every input string parse_json_format terminates and returns a
string that is itself valid json text: its result parses back under the
embedded json.loads, and it is either the empty-array literal or the
canonical re-serialization of the first matching candidate substring of
one of the two searches. -/
theorem c9_output_valid_json (msg : List Char) :
    (∃ w, loads (parse_json_format msg) = some w) ∧
    (parse_json_format msg = ['[', ']'] ∨
      ∃ cand v,
        (searchArray msg = some cand ∨ searchObject msg = some cand) ∧
        loads cand = some v ∧ parse_json_format msg = dumpsV v) := by
  refine ⟨pjf_valid msg, ?_⟩
  unfold parse_json_format objectPhase
  cases hsa : searchArray msg with
  | some cand =>
    dsimp only
    cases hld : loads cand with
    | some v =>
      simp only [hld]
      exact Or.inr ⟨cand, v, Or.inl rfl, hld, rfl⟩
    | none =>
      simp only [hld]
      cases hso : searchObject msg with
      | some cand2 =>
        dsimp only
        cases hld2 : loads cand2 with
        | some v2 =>
          simp only [hld2]
          exact Or.inr ⟨cand2, v2, Or.inr rfl, hld2, rfl⟩
        | none =>
          simp only [hld2]
          exact Or.inl trivial
      | none => exact Or.inl rfl
  | none =>
    cases hso : searchObject msg with
    | some cand2 =>
      dsimp only
      cases hld2 : loads cand2 with
      | some v2 =>
        simp only [hld2]
        exact Or.inr ⟨cand2, v2, Or.inr rfl, hld2, rfl⟩
      | none =>
        simp only [hld2]
        exact Or.inl trivial
    | none => exact Or.inl rfl

/-- C10: a message that carries a tool_calls key and also has role tool is
handled by the tool_calls branch alone: its content becomes the json
serialization of the calls, the tool_calls key is removed, and the
tool-role rewrite is skipped, so the role stays tool and the tool_call_id
key is retained. -/
theorem c10_tool_calls_branch_wins (m : Message) (tc : JVal)
    (h1 : m.tool_calls = some tc) (h2 : m.role = some "tool") :
    flattenMsg m = some ⟨some "tool", some (String.mk (dumpsV tc)), none,
      m.tool_call_id⟩ := by
  simp only [flattenMsg, h1]
  rw [h2]

/-- C10, witness at a concrete conflicting message. -/
theorem c10_tool_calls_branch_wins_witness :
    flattenMsg ⟨some "tool", some "c", some (JVal.arr .nil), some "7"⟩ =
      some ⟨some "tool", some (String.mk (dumpsV (JVal.arr .nil))), none,
        some "7"⟩ :=
  c10_tool_calls_branch_wins
    ⟨some "tool", some "c", some (JVal.arr .nil), some "7"⟩
    (JVal.arr .nil) rfl rfl

end Aios
